import Mathlib

/-!
`random_wallpaper`: the screen-layout collage builder of `main.cpp`.

A shallow embedding of `scaleImage`, `cropImage` and `buildBackdrop`.

* C++ `int` values are `Int`, and the theorems that depend on the 32-bit range state it as a
  hypothesis.  The additions `screen.height + screen.y` and `screen.width + screen.x` of
  `buildBackdrop` are taken with `addInt`, which wraps a sum outside the range as two's
  complement hardware does; the subtractions of `cropImage` are between values of
  `[0, 2 ^ 31)` and cannot leave the range.
* C++ `double` values are modelled exactly: a non-negative finite binary64 number is a pair
  `man * 2 ^ exp`, and each arithmetic operation rounds its exact result to 53 significant
  bits, ties to even (`roundDbl`), as an IEEE 754 unit computing in double precision does.
  Exponent range limits are not modelled: for 32-bit operands every value met lies between
  `2 ^ (-32)` and `2 ^ 63`.  Signs, infinities and NaN are not modelled either: the model
  covers screens of positive size, with images of non-negative size.
* A `cv::Mat` is a header (origin and size of a window) onto a pixel buffer; the OpenCV calls
  used by the program (`Mat::operator()(Rect)`, `resize`, `copyTo`) are modelled with the
  assertions they make, a failed assertion being the `cv::Exception` it throws.
* The environment of `buildBackdrop` is passed in: the directory listing, the values returned
  by `rand()`, the decoder `imread` and the interpolation used by `resize`.
-/

namespace Wallpaper

/-! ## Double precision -/

/-- A non-negative finite `double`: the value `man * 2 ^ exp`. -/
structure Dbl where
  man : Nat
  exp : Int
deriving DecidableEq, Repr

/-- Binary logarithm by repeated halving, `fuel` bounding the number of halvings. -/
def log2Fuel : Nat → Nat → Nat
  | 0, _ => 0
  | fuel + 1, n => if n < 2 then 0 else log2Fuel fuel (n / 2) + 1

/-- Position of the leading bit of `n`. -/
def floorLog2 (n : Nat) : Nat := log2Fuel n n

/-- The binade of the positive rational `n / d`: the `e` with `2 ^ e ≤ n / d < 2 ^ (e + 1)`. -/
def ilog2Ratio (n d : Nat) : Int :=
  if n * 2 ^ floorLog2 d < d * 2 ^ floorLog2 n then (floorLog2 n : Int) - floorLog2 d - 1
  else (floorLog2 n : Int) - floorLog2 d

/-- Nearest integer to `num / den`, a tie going to the even neighbour. -/
def roundHalfEven (num den : Nat) : Nat :=
  if 2 * (num % den) < den then num / den
  else if den < 2 * (num % den) then num / den + 1
  else if (num / den) % 2 = 0 then num / den else num / den + 1

/-- The binary64 number nearest to `(n / d) * 2 ^ s` (round to nearest, ties to even): the
quotient is scaled into `[2 ^ 52, 2 ^ 53)` and rounded to an integer significand. -/
def roundDbl (n d : Nat) (s : Int) : Dbl :=
  if n = 0 ∨ d = 0 then ⟨0, 0⟩
  else if 0 ≤ 52 - ilog2Ratio n d then
    ⟨roundHalfEven (n * 2 ^ (52 - ilog2Ratio n d).toNat) d, s - (52 - ilog2Ratio n d)⟩
  else
    ⟨roundHalfEven n (d * 2 ^ (ilog2Ratio n d - 52).toNat), s - (52 - ilog2Ratio n d)⟩

/-- Conversion `(double)n` of a non-negative `int`; exact, an `int` having at most 31 bits. -/
def Dbl.ofInt (n : Int) : Dbl := ⟨n.toNat, 0⟩

/-- IEEE division `a / b`. -/
def Dbl.div (a b : Dbl) : Dbl := roundDbl a.man b.man (a.exp - b.exp)

/-- IEEE multiplication `a * b`. -/
def Dbl.mul (a b : Dbl) : Dbl := roundDbl (a.man * b.man) 1 (a.exp + b.exp)

/-- Conversion of a `double` to `int`: the fractional part is discarded. -/
def Dbl.toInt (a : Dbl) : Int :=
  if 0 ≤ a.exp then a.man * 2 ^ a.exp.toNat else a.man / 2 ^ (-a.exp).toNat

/-- Comparison `a < b` of two doubles. -/
def Dbl.lt (a b : Dbl) : Bool :=
  decide (a.man * 2 ^ (a.exp - min a.exp b.exp).toNat < b.man * 2 ^ (b.exp - min a.exp b.exp).toNat)

/-- Comparison `a == b` of two doubles. -/
def Dbl.eq (a b : Dbl) : Bool :=
  decide (a.man * 2 ^ (a.exp - min a.exp b.exp).toNat = b.man * 2 ^ (b.exp - min a.exp b.exp).toNat)

/-- The rational number a `Dbl` stands for. -/
def Dbl.toRat (a : Dbl) : ℚ := (a.man : ℚ) * (2 : ℚ) ^ a.exp

/-- Nearest integer to a rational, a tie going to the even neighbour. -/
def rneQ (x : ℚ) : Int :=
  if 2 * (x - ⌊x⌋) < 1 then ⌊x⌋
  else if 1 < 2 * (x - ⌊x⌋) then ⌊x⌋ + 1
  else if ⌊x⌋ % 2 = 0 then ⌊x⌋ else ⌊x⌋ + 1

/-- C library `round` on a non-negative rational: nearest integer, halves away from zero. -/
def roundNearest (x : ℚ) : Int := ⌊x + 1 / 2⌋

/-! ## Data model -/

/-- Struct for storing Screen data. -/
structure Screen where
  x : Int
  y : Int
  width : Int
  height : Int
deriving DecidableEq, Repr

/-- One `CV_8UC3` pixel. -/
structure Pixel where
  b : Nat
  g : Nat
  r : Nat
deriving DecidableEq, Repr

/-- The fill colour `cv::Scalar(0, 0, 0)`. -/
def black : Pixel := ⟨0, 0, 0⟩

/-- A `cv::Rect`. -/
structure Rect where
  x : Int
  y : Int
  width : Int
  height : Int
deriving DecidableEq, Repr

/-- A `cv::Mat` header: a window of `cols` by `rows` pixels whose top-left pixel sits at
`(offX, offY)` of the buffer `buf`. -/
structure Mat where
  buf : Int → Int → Pixel
  offX : Int
  offY : Int
  cols : Int
  rows : Int

/-- Pixel in column `i`, row `j` of the window. -/
def Mat.pixel (m : Mat) (i j : Int) : Pixel := m.buf (m.offX + i) (m.offY + j)

/-- A `cv::Mat` without data, as left by `release()`. -/
def Mat.released : Mat := ⟨fun _ _ => black, 0, 0, 0, 0⟩

/-- How a call can fail. -/
inductive Fault where
  | divideByZero
  | outOfRange
  | cvAssert
deriving DecidableEq, Repr

/-! ## OpenCV operations -/

/-- OpenCV `Mat::operator()(const Rect&)`: the window must lie inside the matrix
(`CV_Assert`), and an empty window gives a released matrix with `rows = cols = 0`. -/
def Mat.roi (m : Mat) (r : Rect) : Except Fault Mat :=
  if 0 ≤ r.x ∧ 0 ≤ r.width ∧ r.x + r.width ≤ m.cols ∧
      0 ≤ r.y ∧ 0 ≤ r.height ∧ r.y + r.height ≤ m.rows then
    if r.height ≤ 0 ∨ r.width ≤ 0 then .ok Mat.released
    else .ok ⟨m.buf, m.offX + r.x, m.offY + r.y, r.width, r.height⟩
  else .error .cvAssert

/-- OpenCV `resize(src, dst, Size(width, height))`: asserts a non-empty source and a non-empty
target size; the result is a fresh `width` by `height` matrix whose pixels are given by the
interpolation `interp`. -/
def resize (interp : Mat → Int → Int → Int → Int → Pixel) (src : Mat) (width height : Int) :
    Except Fault Mat :=
  if src.cols ≤ 0 ∨ src.rows ≤ 0 then .error .cvAssert
  else if width ≤ 0 ∨ height ≤ 0 then .error .cvAssert
  else .ok ⟨interp src width height, 0, 0, width, height⟩

/-- OpenCV `image.copyTo(canvas(r))`: the window `canvas(r)` is a temporary, hence a
fixed-size destination, and `copyTo` asserts that the source has exactly its size; the pixels
of `image` then overwrite the window. -/
def copyToRoi (image canvas : Mat) (r : Rect) : Except Fault Mat :=
  match canvas.roi r with
  | .error e => .error e
  | .ok view =>
    if image.cols ≤ 0 ∨ image.rows ≤ 0 then .error .cvAssert
    else if image.cols = view.cols ∧ image.rows = view.rows then
      .ok ⟨fun bx by_ =>
            if view.offX ≤ bx ∧ bx < view.offX + view.cols ∧
                view.offY ≤ by_ ∧ by_ < view.offY + view.rows then
              image.pixel (bx - view.offX) (by_ - view.offY)
            else canvas.buf bx by_,
          canvas.offX, canvas.offY, canvas.cols, canvas.rows⟩
    else .error .cvAssert

/-! ## The program -/

/-- Scales an image to match the resolution of a screen (`scaleImage`). -/
def scaleImage (interp : Mat → Int → Int → Int → Int → Pixel) (input : Mat) (screen : Screen) :
    Except Fault Mat :=
  if input.cols ≠ screen.width then
    resize interp input screen.width screen.height
  else .ok input

/-- The value `expectedRatio` of `cropImage`: `(double)screen.width / screen.height`. -/
def expectedRatioOf (screen : Screen) : Dbl :=
  Dbl.div (Dbl.ofInt screen.width) (Dbl.ofInt screen.height)

/-- The value `imageRatio` of `cropImage`: `(double)imageSize.width / imageSize.height`. -/
def imageRatioOf (input : Mat) : Dbl :=
  Dbl.div (Dbl.ofInt input.cols) (Dbl.ofInt input.rows)

/-- The value `correctedWidth` of `cropImage`: `(double)imageSize.height * expectedRatio`
converted to `int`. -/
def correctedWidthOf (input : Mat) (screen : Screen) : Int :=
  Dbl.toInt (Dbl.mul (Dbl.ofInt input.rows) (expectedRatioOf screen))

/-- The value `correctedHeight` of `cropImage`: `(double)imageSize.width / expectedRatio`
converted to `int`. -/
def correctedHeightOf (input : Mat) (screen : Screen) : Int :=
  Dbl.toInt (Dbl.div (Dbl.ofInt input.cols) (expectedRatioOf screen))

/-- Crops an image to match a screen's aspect ratio, by zooming (`cropImage`). -/
def cropImage (input : Mat) (screen : Screen) : Except Fault Mat :=
  if Dbl.eq (expectedRatioOf screen) (imageRatioOf input) then .ok input
  else if Dbl.lt (expectedRatioOf screen) (imageRatioOf input) then
    input.roi ⟨(input.cols - correctedWidthOf input screen) >>> (1 : Nat), 0,
      correctedWidthOf input screen, input.rows⟩
  else
    input.roi ⟨0, (input.rows - correctedHeightOf input screen) >>> (1 : Nat),
      input.cols, correctedHeightOf input screen⟩

/-- The C++ `int` sum `a + b`: the exact sum when it lies in `[-2 ^ 31, 2 ^ 31)`, and otherwise
(signed overflow, undefined in C++) the two's complement wrap that the machine addition
gives. -/
def addInt (a b : Int) : Int := (a + b + 2 ^ 31) % 2 ^ 32 - 2 ^ 31

/-- Loop state of the first loop of `buildBackdrop`. -/
structure PickState where
  maxHeight : Int
  maxWidth : Int
  picked : List String
  i : Nat

/-- First loop of `buildBackdrop`: canvas extent and one random directory entry per screen.
`rand k` is the value of the `k`-th call of `rand()`; `rand() % images.size()` with an empty
`images` is a division by zero. -/
def pickLoop (images : List String) (rand : Nat → Nat) :
    List Screen → PickState → Except Fault PickState
  | [], st => .ok st
  | screen :: rest, st =>
    if images.length = 0 then .error .divideByZero
    else
      match images.get? (rand st.i % images.length) with
      | none => .error .outOfRange
      | some path =>
        pickLoop images rand rest
          ⟨max st.maxHeight (addInt screen.height screen.y),
            max st.maxWidth (addInt screen.width screen.x),
            st.picked ++ [path], st.i + 1⟩

/-- The canvas `cv::Mat canvas(maxHeight, maxWidth, CV_8UC3, cv::Scalar(0, 0, 0))`. -/
def blankCanvas (maxHeight maxWidth : Int) : Mat :=
  ⟨fun _ _ => black, 0, 0, maxWidth, maxHeight⟩

/-- Second loop of `buildBackdrop`, on the images already read: crop, scale, paste. -/
def pasteLoop (interp : Mat → Int → Int → Int → Int → Pixel) :
    List (Screen × Mat) → Mat → Except Fault Mat
  | [], canvas => .ok canvas
  | (screen, image) :: rest, canvas =>
    match cropImage image screen with
    | .error e => .error e
    | .ok cropped =>
      match scaleImage interp cropped screen with
      | .error e => .error e
      | .ok scaled =>
        match copyToRoi scaled canvas ⟨screen.x, screen.y, screen.width, screen.height⟩ with
        | .error e => .error e
        | .ok canvas1 => pasteLoop interp rest canvas1

/-- Builds a collage of backdrops using random photos from a source directory
(`buildBackdrop`); `images` is the directory listing and `imread` the decoder. -/
def buildBackdrop (interp : Mat → Int → Int → Int → Int → Pixel) (imread : String → Mat)
    (rand : Nat → Nat) (screens : List Screen) (images : List String) : Except Fault Mat :=
  match pickLoop images rand screens ⟨0, 0, [], 0⟩ with
  | .error e => .error e
  | .ok st =>
    pasteLoop interp (screens.zip (st.picked.map imread)) (blankCanvas st.maxHeight st.maxWidth)

/-! ## Sample inputs -/

/-- A picture with a colour gradient, `cols` by `rows` pixels. -/
def gradientImage (cols rows : Int) : Mat :=
  ⟨fun x y => ⟨(x % 256).toNat, (y % 256).toNat, 128⟩, 0, 0, cols, rows⟩

/-- A 4000 by 3000 landscape photo. -/
def landscapePhoto : Mat := gradientImage 4000 3000

/-- A 1080 by 1920 screen in portrait orientation. -/
def portraitScreen : Screen := ⟨0, 0, 1080, 1920⟩

/-! ## Derived notions used to state the properties of `buildBackdrop` -/

/-- Whether the canvas pixel `(px, py)` lies in the rectangle of the screen. -/
def Screen.covers (s : Screen) (px py : Int) : Prop :=
  s.x ≤ px ∧ px < s.x + s.width ∧ s.y ≤ py ∧ py < s.y + s.height

instance (s : Screen) (px py : Int) : Decidable (s.covers px py) := by
  unfold Screen.covers; infer_instance

/-- Two screens sharing no pixel. -/
def Screen.disjoint (s t : Screen) : Prop :=
  ∀ px py : Int, ¬ (s.covers px py ∧ t.covers px py)

/-- The image handed to the paste step for one screen: `scaleImage(cropImage(image, screen))`. -/
def cropAndScale (interp : Mat → Int → Int → Int → Int → Pixel) (p : Screen × Mat) :
    Except Fault Mat :=
  match cropImage p.2 p.1 with
  | .error e => .error e
  | .ok cropped => scaleImage interp cropped p.1

/-- The value `maxHeight` after the first loop of `buildBackdrop`. -/
def canvasHeight (screens : List Screen) : Int :=
  screens.foldl (fun m s => max m (addInt s.height s.y)) 0

/-- The value `maxWidth` after the first loop of `buildBackdrop`. -/
def canvasWidth (screens : List Screen) : Int :=
  screens.foldl (fun m s => max m (addInt s.width s.x)) 0

/-- The body of `buildBackdrop` once the image of every screen is fixed: a black canvas of the
screens' extent, then the paste loop. -/
def composeBackdrop (interp : Mat → Int → Int → Int → Int → Pixel)
    (pairs : List (Screen × Mat)) : Except Fault Mat :=
  pasteLoop interp pairs
    (blankCanvas (canvasHeight (pairs.map Prod.fst)) (canvasWidth (pairs.map Prod.fst)))

/-- What one pass of the paste loop needs to succeed on a `cols` by `rows` canvas. -/
def PasteOk (interp : Mat → Int → Int → Int → Int → Pixel) (cols rows : Int)
    (p : Screen × Mat) : Prop :=
  ∃ img, cropAndScale interp p = .ok img ∧
    0 ≤ p.1.x ∧ p.1.x + p.1.width ≤ cols ∧ 0 ≤ p.1.y ∧ p.1.y + p.1.height ≤ rows ∧
    0 < p.1.width ∧ 0 < p.1.height ∧ img.cols = p.1.width ∧ img.rows = p.1.height

/-- The colour of one canvas pixel after pasting the given pairs in order over `base`. -/
def paintOver (interp : Mat → Int → Int → Int → Int → Pixel) :
    List (Screen × Mat) → Pixel → Int → Int → Pixel
  | [], base, _, _ => base
  | p :: rest, base, px, py =>
    paintOver interp rest
      (if p.1.covers px py then
        match cropAndScale interp p with
        | .ok img => img.pixel (px - p.1.x) (py - p.1.y)
        | .error _ => base
      else base) px py

/-- Nearest-neighbour sampling, a simple interpolation for `resize`. -/
def nearestNeighbour (src : Mat) (width height x y : Int) : Pixel :=
  src.pixel (x * src.cols / width) (y * src.rows / height)

/-- A 3840 by 2160 photo on a 1920 by 1080 screen at the origin. -/
def leftPair : Screen × Mat := (⟨0, 0, 1920, 1080⟩, gradientImage 3840 2160)

/-- A 3840 by 2160 photo on a 1080 by 1920 screen to the right of `leftPair`. -/
def rightPair : Screen × Mat := (⟨1920, 0, 1080, 1920⟩, gradientImage 3840 2160)

/-- A 1920 by 1080 photo on a 1920 by 1080 screen overlapping the right half of `leftPair`. -/
def overlapPair : Screen × Mat := (⟨960, 0, 1920, 1080⟩, gradientImage 1920 1080)

/-! ## Facts about the double-precision model -/

theorem log2Fuel_spec : ∀ (fuel n : Nat), 0 < n → n ≤ fuel →
    2 ^ log2Fuel fuel n ≤ n ∧ n < 2 ^ (log2Fuel fuel n + 1) := by
  intro fuel
  induction fuel with
  | zero => intro n h0 h1; omega
  | succ f ih =>
    intro n h0 h1
    unfold log2Fuel
    by_cases h2 : n < 2
    · simp only [h2, if_true]
      constructor
      · simpa using h0
      · simpa using h2
    · simp only [h2, if_false]
      have hh := ih (n / 2) (by omega) (by omega)
      obtain ⟨ha, hb⟩ := hh
      rw [pow_succ] at hb ⊢
      rw [pow_succ (2 : Nat) (log2Fuel f (n / 2) + 1), pow_succ]
      generalize (2 : Nat) ^ log2Fuel f (n / 2) = a at ha hb ⊢
      constructor <;> omega

theorem floorLog2_spec (n : Nat) (h : 0 < n) :
    2 ^ floorLog2 n ≤ n ∧ n < 2 ^ (floorLog2 n + 1) :=
  log2Fuel_spec n n h (le_refl n)

theorem ilog2Ratio_spec (n d : Nat) (hn : 0 < n) (hd : 0 < d) :
    (2 : ℚ) ^ ilog2Ratio n d ≤ (n : ℚ) / d ∧ (n : ℚ) / d < (2 : ℚ) ^ (ilog2Ratio n d + 1) := by
  obtain ⟨na, nb⟩ := floorLog2_spec n hn
  obtain ⟨da, db⟩ := floorLog2_spec d hd
  have hdq : (0 : ℚ) < d := by exact_mod_cast hd
  have h2 : (0 : ℚ) < 2 := by norm_num
  have naq : (2 : ℚ) ^ floorLog2 n ≤ n := by exact_mod_cast na
  have nbq : (n : ℚ) < (2 : ℚ) ^ (floorLog2 n + 1) := by exact_mod_cast nb
  have daq : (2 : ℚ) ^ floorLog2 d ≤ d := by exact_mod_cast da
  have dbq : (d : ℚ) < (2 : ℚ) ^ (floorLog2 d + 1) := by exact_mod_cast db
  have pa : (0 : ℚ) < (2 : ℚ) ^ floorLog2 n := by positivity
  have pb : (0 : ℚ) < (2 : ℚ) ^ floorLog2 d := by positivity
  have e1 : ∀ k : Int, (2 : ℚ) ^ ((floorLog2 n : Int) - floorLog2 d + k)
      = (2 : ℚ) ^ floorLog2 n / (2 : ℚ) ^ floorLog2 d * (2 : ℚ) ^ k := by
    intro k
    rw [zpow_add₀ (by norm_num), zpow_sub₀ (by norm_num), zpow_natCast, zpow_natCast]
  unfold ilog2Ratio
  by_cases hc : n * 2 ^ floorLog2 d < d * 2 ^ floorLog2 n
  · have hcq : (n : ℚ) * (2 : ℚ) ^ floorLog2 d < d * (2 : ℚ) ^ floorLog2 n := by exact_mod_cast hc
    simp only [hc, if_true]
    have h1 := e1 (-1)
    have h0 := e1 0
    rw [show (floorLog2 n : Int) - floorLog2 d + -1 = (floorLog2 n : Int) - floorLog2 d - 1 by ring] at h1
    rw [show (floorLog2 n : Int) - floorLog2 d + 0 = (floorLog2 n : Int) - floorLog2 d - 1 + 1 by ring] at h0
    rw [h1, h0]
    constructor
    · rw [le_div_iff₀ hdq, zpow_neg_one]
      rw [pow_succ] at dbq
      have : (2 : ℚ) ^ floorLog2 n / (2 : ℚ) ^ floorLog2 d * 2⁻¹ * d
          = (2 : ℚ) ^ floorLog2 n * (d / ((2 : ℚ) ^ floorLog2 d * 2)) := by
        field_simp
      rw [this]
      have hlt : (d : ℚ) / ((2 : ℚ) ^ floorLog2 d * 2) ≤ 1 := by
        rw [div_le_one (by positivity)]; exact le_of_lt dbq
      calc (2 : ℚ) ^ floorLog2 n * (d / ((2 : ℚ) ^ floorLog2 d * 2))
          ≤ (2 : ℚ) ^ floorLog2 n * 1 := by
            apply mul_le_mul_of_nonneg_left hlt (le_of_lt pa)
        _ ≤ n := by simpa using naq
    · rw [zpow_zero, mul_one, div_lt_div_iff₀ hdq pb]
      linarith
  · have hcq : (d : ℚ) * (2 : ℚ) ^ floorLog2 n ≤ n * (2 : ℚ) ^ floorLog2 d := by
      exact_mod_cast not_lt.mp hc
    simp only [hc, if_false]
    have h1 := e1 1
    have h0 := e1 0
    rw [add_zero] at h0
    rw [h1, h0]
    constructor
    · rw [zpow_zero, mul_one, div_le_div_iff₀ pb hdq]
      linarith
    · rw [zpow_one, div_lt_iff₀ hdq]
      rw [pow_succ] at nbq
      have : (2 : ℚ) ^ floorLog2 n / (2 : ℚ) ^ floorLog2 d * 2 * d
          = (2 : ℚ) ^ floorLog2 n * 2 * (d / (2 : ℚ) ^ floorLog2 d) := by
        field_simp
      rw [this]
      have hge : (1 : ℚ) ≤ d / (2 : ℚ) ^ floorLog2 d := by
        rw [one_le_div pb]; exact daq
      calc (n : ℚ) < (2 : ℚ) ^ floorLog2 n * 2 := nbq
        _ = (2 : ℚ) ^ floorLog2 n * 2 * 1 := by ring
        _ ≤ (2 : ℚ) ^ floorLog2 n * 2 * (d / (2 : ℚ) ^ floorLog2 d) := by
            apply mul_le_mul_of_nonneg_left hge (by positivity)

theorem rneQ_abs_sub_le (x : ℚ) : |(rneQ x : ℚ) - x| ≤ 1 / 2 := by
  have h1 := Int.floor_le x
  have h2 := Int.lt_floor_add_one x
  unfold rneQ
  split_ifs with a b c
  · rw [abs_le]; constructor <;> linarith
  · rw [abs_le]; push_cast; constructor <;> linarith
  · rw [abs_le]; constructor <;> linarith
  · rw [abs_le]; push_cast; constructor <;> linarith

theorem rneQ_nonneg (x : ℚ) (hx : 0 ≤ x) : 0 ≤ rneQ x := by
  have h1 : 0 ≤ ⌊x⌋ := Int.floor_nonneg.mpr hx
  unfold rneQ
  split_ifs <;> omega

theorem rneQ_intCast (z : Int) : rneQ (z : ℚ) = z := by
  unfold rneQ
  simp

theorem rneQ_mono {x y : ℚ} (h : x ≤ y) : rneQ x ≤ rneQ y := by
  have hf : ⌊x⌋ ≤ ⌊y⌋ := Int.floor_le_floor h
  rcases lt_or_eq_of_le hf with hlt | heq
  · have hx : rneQ x ≤ ⌊x⌋ + 1 := by unfold rneQ; split_ifs <;> omega
    have hy : ⌊y⌋ ≤ rneQ y := by unfold rneQ; split_ifs <;> omega
    omega
  · unfold rneQ
    rw [← heq]
    split_ifs <;> first | omega | (exfalso; linarith)

theorem roundHalfEven_eq_rneQ (num den : Nat) (hden : 0 < den) :
    (roundHalfEven num den : Int) = rneQ ((num : ℚ) / den) := by
  have hdq : (0 : ℚ) < den := by exact_mod_cast hden
  have hfl : ⌊(num : ℚ) / den⌋ = ((num / den : Nat) : Int) := by
    rw [Rat.floor_natCast_div_natCast]; rfl
  have hsplit0 := (Nat.div_add_mod num den).symm
  unfold roundHalfEven rneQ
  rw [hfl]
  generalize num / den = q at hsplit0 ⊢
  generalize num % den = r at hsplit0 ⊢
  have hsplit : (num : ℚ) = (den : ℚ) * (q : ℚ) + (r : ℚ) := by exact_mod_cast hsplit0
  have hfrac : 2 * ((num : ℚ) / den - ((q : Int) : ℚ)) * den = 2 * (r : ℚ) := by
    rw [Int.cast_natCast]
    field_simp
    linarith
  have hlt : (2 * ((num : ℚ) / den - ((q : Int) : ℚ)) < 1) ↔ 2 * r < den := by
    rw [← mul_lt_mul_right hdq, hfrac, one_mul]
    exact_mod_cast Iff.rfl
  have hgt : (1 < 2 * ((num : ℚ) / den - ((q : Int) : ℚ))) ↔ den < 2 * r := by
    rw [← mul_lt_mul_right hdq, hfrac, one_mul]
    exact_mod_cast Iff.rfl
  have hev : ((q : Int) % 2 = 0) ↔ q % 2 = 0 := by omega
  simp only [hlt, hgt, hev]
  split_ifs <;> simp

theorem roundDbl_eq (n d : Nat) (s : Int) (hn : 0 < n) (hd : 0 < d) :
    roundDbl n d s =
      ⟨(rneQ ((n : ℚ) / d * (2 : ℚ) ^ (52 - ilog2Ratio n d))).toNat,
        s - (52 - ilog2Ratio n d)⟩ := by
  have hdq : (0 : ℚ) < d := by exact_mod_cast hd
  unfold roundDbl
  have hnd : ¬ (n = 0 ∨ d = 0) := by omega
  simp only [hnd, if_false]
  generalize ilog2Ratio n d = e
  by_cases hk : 0 ≤ 52 - e
  · simp only [hk, if_true]
    congr 1
    have hz : (2 : ℚ) ^ (52 - e) = (2 : ℚ) ^ (52 - e).toNat := by
      rw [← zpow_natCast, Int.toNat_of_nonneg hk]
    have hq : (n : ℚ) / d * (2 : ℚ) ^ (52 - e) = ((n * 2 ^ (52 - e).toNat : Nat) : ℚ) / d := by
      rw [hz]; push_cast; ring
    rw [hq, ← roundHalfEven_eq_rneQ _ _ hd, Int.toNat_natCast]
  · simp only [hk, if_false]
    congr 1
    have hk2 : 0 ≤ e - 52 := by omega
    have hz : (2 : ℚ) ^ (52 - e) = ((2 : ℚ) ^ (e - 52).toNat)⁻¹ := by
      rw [← zpow_natCast, Int.toNat_of_nonneg hk2, ← zpow_neg]
      congr 1; ring
    have hq : (n : ℚ) / d * (2 : ℚ) ^ (52 - e) = (n : ℚ) / ((d * 2 ^ (e - 52).toNat : Nat) : ℚ) := by
      rw [hz]; push_cast; field_simp
    have hpos : 0 < d * 2 ^ (e - 52).toNat := Nat.mul_pos hd (by positivity)
    rw [hq, ← roundHalfEven_eq_rneQ _ _ hpos, Int.toNat_natCast]

theorem binade_unique (x : ℚ) (e e1 : Int) (h1 : (2 : ℚ) ^ e ≤ x) (h2 : x < (2 : ℚ) ^ (e + 1))
    (h3 : (2 : ℚ) ^ e1 ≤ x) (h4 : x < (2 : ℚ) ^ (e1 + 1)) : e = e1 := by
  have a : (2 : ℚ) ^ e < (2 : ℚ) ^ (e1 + 1) := lt_of_le_of_lt h1 h4
  have b : (2 : ℚ) ^ e1 < (2 : ℚ) ^ (e + 1) := lt_of_le_of_lt h3 h2
  rw [zpow_lt_zpow_iff_right₀ (by norm_num)] at a b
  omega

theorem ilog2Ratio_congr (n d n1 d1 : Nat) (hn : 0 < n) (hd : 0 < d) (hn1 : 0 < n1)
    (hd1 : 0 < d1) (h : n * d1 = n1 * d) : ilog2Ratio n d = ilog2Ratio n1 d1 := by
  have hq : (n : ℚ) / d = (n1 : ℚ) / d1 := by
    have hdq : (d : ℚ) ≠ 0 := by positivity
    have hd1q : (d1 : ℚ) ≠ 0 := by positivity
    rw [div_eq_div_iff hdq hd1q]
    exact_mod_cast h
  obtain ⟨a1, a2⟩ := ilog2Ratio_spec n d hn hd
  obtain ⟨b1, b2⟩ := ilog2Ratio_spec n1 d1 hn1 hd1
  rw [hq] at a1 a2
  exact binade_unique _ _ _ a1 a2 b1 b2

/-- Rounding depends on the exact quotient only. -/
theorem roundDbl_congr (n d n1 d1 : Nat) (s : Int) (hn : 0 < n) (hd : 0 < d) (hn1 : 0 < n1)
    (hd1 : 0 < d1) (h : n * d1 = n1 * d) : roundDbl n d s = roundDbl n1 d1 s := by
  have hq : (n : ℚ) / d = (n1 : ℚ) / d1 := by
    have hdq : (d : ℚ) ≠ 0 := by positivity
    have hd1q : (d1 : ℚ) ≠ 0 := by positivity
    rw [div_eq_div_iff hdq hd1q]
    exact_mod_cast h
  rw [roundDbl_eq n d s hn hd, roundDbl_eq n1 d1 s hn1 hd1,
    ilog2Ratio_congr n d n1 d1 hn hd hn1 hd1 h, hq]

theorem roundDbl_toRat (n d : Nat) (s : Int) (hn : 0 < n) (hd : 0 < d) :
    (roundDbl n d s).toRat =
      (rneQ ((n : ℚ) / d * (2 : ℚ) ^ (52 - ilog2Ratio n d)) : ℚ)
        * (2 : ℚ) ^ (s - (52 - ilog2Ratio n d)) := by
  rw [roundDbl_eq n d s hn hd]
  unfold Dbl.toRat
  simp only
  have hx : (0 : ℚ) ≤ (n : ℚ) / d * (2 : ℚ) ^ (52 - ilog2Ratio n d) := by positivity
  have := rneQ_nonneg _ hx
  congr 1
  have h2 : (((rneQ ((n : ℚ) / d * (2 : ℚ) ^ (52 - ilog2Ratio n d))).toNat : Int) : ℚ)
      = (rneQ ((n : ℚ) / d * (2 : ℚ) ^ (52 - ilog2Ratio n d)) : ℚ) := by
    rw [Int.toNat_of_nonneg this]
  rw [← h2, Int.cast_natCast]

/-- Unit round-off: a rounded result differs from the exact one by at most `2 ^ (-53)` of it. -/
theorem roundDbl_error (n d : Nat) (s : Int) (hn : 0 < n) (hd : 0 < d) :
    |(roundDbl n d s).toRat - (n : ℚ) / d * (2 : ℚ) ^ s|
      ≤ (n : ℚ) / d * (2 : ℚ) ^ s / 2 ^ 53 := by
  rw [roundDbl_toRat n d s hn hd]
  obtain ⟨a1, a2⟩ := ilog2Ratio_spec n d hn hd
  generalize ilog2Ratio n d = e at a1 a2 ⊢
  generalize (n : ℚ) / d = x at a1 a2 ⊢
  have hy := rneQ_abs_sub_le (x * (2 : ℚ) ^ (52 - e))
  have hp : (0 : ℚ) < (2 : ℚ) ^ (s - (52 - e)) := by positivity
  have hs : (2 : ℚ) ^ s = (2 : ℚ) ^ (52 - e) * (2 : ℚ) ^ (s - (52 - e)) := by
    rw [← zpow_add₀ (by norm_num)]; congr 1; ring
  have hlow : (2 : ℚ) ^ (52 : Int) ≤ x * (2 : ℚ) ^ (52 - e) := by
    have : (2 : ℚ) ^ (52 : Int) = (2 : ℚ) ^ e * (2 : ℚ) ^ (52 - e) := by
      rw [← zpow_add₀ (by norm_num)]; congr 1; ring
    rw [this]
    exact mul_le_mul_of_nonneg_right a1 (by positivity)
  have h52 : (2 : ℚ) ^ (52 : Int) = 2 ^ 53 / 2 := by norm_num
  rw [hs]
  have e1 : (rneQ (x * (2 : ℚ) ^ (52 - e)) : ℚ) * (2 : ℚ) ^ (s - (52 - e))
        - x * ((2 : ℚ) ^ (52 - e) * (2 : ℚ) ^ (s - (52 - e)))
      = ((rneQ (x * (2 : ℚ) ^ (52 - e)) : ℚ) - x * (2 : ℚ) ^ (52 - e))
        * (2 : ℚ) ^ (s - (52 - e)) := by ring
  rw [e1, abs_mul, abs_of_pos hp]
  have e2 : x * ((2 : ℚ) ^ (52 - e) * (2 : ℚ) ^ (s - (52 - e))) / 2 ^ 53
      = (x * (2 : ℚ) ^ (52 - e) / 2 ^ 53) * (2 : ℚ) ^ (s - (52 - e)) := by ring
  rw [e2]
  apply mul_le_mul_of_nonneg_right _ (le_of_lt hp)
  refine le_trans hy ?_
  rw [le_div_iff₀ (by norm_num)]
  rw [h52] at hlow
  linarith

theorem Dbl.toRat_ofInt (n : Int) (h : 0 ≤ n) : (Dbl.ofInt n).toRat = (n : ℚ) := by
  unfold Dbl.toRat Dbl.ofInt
  simp only [zpow_zero, mul_one]
  have : ((n.toNat : Int) : ℚ) = (n : ℚ) := by rw [Int.toNat_of_nonneg h]
  rw [← this, Int.cast_natCast]

theorem Dbl.toRat_nonneg (a : Dbl) : 0 ≤ a.toRat := by
  unfold Dbl.toRat; positivity

theorem Dbl.toRat_pos_iff (a : Dbl) : 0 < a.toRat ↔ 0 < a.man := by
  unfold Dbl.toRat
  have hp : (0 : ℚ) < (2 : ℚ) ^ a.exp := by positivity
  constructor
  · intro h
    by_contra hc
    have : a.man = 0 := by omega
    rw [this] at h
    simp at h
  · intro h
    have : (0 : ℚ) < a.man := by exact_mod_cast h
    positivity

theorem Dbl.scaled_cast (a : Dbl) (m : Int) (h : m ≤ a.exp) :
    ((a.man * 2 ^ (a.exp - m).toNat : Nat) : ℚ) = a.toRat * (2 : ℚ) ^ (-m) := by
  unfold Dbl.toRat
  push_cast
  rw [mul_assoc, ← zpow_add₀ (by norm_num), ← zpow_natCast, Int.toNat_of_nonneg (by omega)]
  congr 2

theorem Dbl.lt_iff (a b : Dbl) : a.lt b = true ↔ a.toRat < b.toRat := by
  unfold Dbl.lt
  rw [decide_eq_true_iff]
  have hp : (0 : ℚ) < (2 : ℚ) ^ (-(min a.exp b.exp)) := by positivity
  rw [← Nat.cast_lt (α := ℚ), Dbl.scaled_cast a _ (min_le_left _ _),
    Dbl.scaled_cast b _ (min_le_right _ _), mul_lt_mul_right hp]

theorem Dbl.eq_iff (a b : Dbl) : a.eq b = true ↔ a.toRat = b.toRat := by
  unfold Dbl.eq
  rw [decide_eq_true_iff]
  have hp : (2 : ℚ) ^ (-(min a.exp b.exp)) ≠ 0 := by positivity
  rw [← Nat.cast_inj (R := ℚ), Dbl.scaled_cast a _ (min_le_left _ _),
    Dbl.scaled_cast b _ (min_le_right _ _), mul_left_inj' hp]

theorem Dbl.toInt_eq_floor (a : Dbl) : a.toInt = ⌊a.toRat⌋ := by
  unfold Dbl.toInt Dbl.toRat
  by_cases h : 0 ≤ a.exp
  · simp only [h, if_true]
    have : (a.man : ℚ) * (2 : ℚ) ^ a.exp = (((a.man : Int) * 2 ^ a.exp.toNat : Int) : ℚ) := by
      push_cast
      rw [← zpow_natCast, Int.toNat_of_nonneg h]
    rw [this, Int.floor_intCast]
  · simp only [h, if_false]
    have hn : 0 ≤ -a.exp := by omega
    have : (a.man : ℚ) * (2 : ℚ) ^ a.exp = (a.man : ℚ) / ((2 ^ (-a.exp).toNat : Nat) : ℚ) := by
      push_cast
      rw [← zpow_natCast, Int.toNat_of_nonneg hn, zpow_neg, div_eq_mul_inv, inv_inv]
    rw [this, Rat.floor_natCast_div_natCast]
    push_cast
    rfl

theorem roundDbl_pos (n d : Nat) (s : Int) (hn : 0 < n) (hd : 0 < d) :
    0 < (roundDbl n d s).man := by
  rw [← Dbl.toRat_pos_iff]
  have h := roundDbl_error n d s hn hd
  have hx : (0 : ℚ) < (n : ℚ) / d * (2 : ℚ) ^ s := by positivity
  rw [abs_le] at h
  have : (n : ℚ) / d * (2 : ℚ) ^ s / 2 ^ 53 < (n : ℚ) / d * (2 : ℚ) ^ s := by
    rw [div_lt_iff₀ (by norm_num)]
    linarith
  linarith

theorem Dbl.div_error (a b : Dbl) (ha : 0 < a.man) (hb : 0 < b.man) :
    |(a.div b).toRat - a.toRat / b.toRat| ≤ a.toRat / b.toRat / 2 ^ 53 := by
  have h := roundDbl_error a.man b.man (a.exp - b.exp) ha hb
  have e : (a.man : ℚ) / b.man * (2 : ℚ) ^ (a.exp - b.exp) = a.toRat / b.toRat := by
    unfold Dbl.toRat
    rw [zpow_sub₀ (by norm_num)]
    have : (b.man : ℚ) ≠ 0 := by positivity
    field_simp
  rw [e] at h
  exact h

theorem Dbl.mul_error (a b : Dbl) (ha : 0 < a.man) (hb : 0 < b.man) :
    |(a.mul b).toRat - a.toRat * b.toRat| ≤ a.toRat * b.toRat / 2 ^ 53 := by
  have h := roundDbl_error (a.man * b.man) 1 (a.exp + b.exp) (Nat.mul_pos ha hb) Nat.one_pos
  have e : ((a.man * b.man : Nat) : ℚ) / (1 : Nat) * (2 : ℚ) ^ (a.exp + b.exp)
      = a.toRat * b.toRat := by
    unfold Dbl.toRat
    rw [zpow_add₀ (by norm_num)]
    push_cast
    ring
  rw [e] at h
  exact h

theorem Dbl.div_pos (a b : Dbl) (ha : 0 < a.man) (hb : 0 < b.man) : 0 < (a.div b).man :=
  roundDbl_pos _ _ _ ha hb

theorem Dbl.mul_pos (a b : Dbl) (ha : 0 < a.man) (hb : 0 < b.man) : 0 < (a.mul b).man :=
  roundDbl_pos _ _ _ (Nat.mul_pos ha hb) Nat.one_pos

/-- The model reproduces the results an IEEE binary64 unit gives for sample operations
(significand and exponent as returned by `frexp` on x86-64): `1.0 / 49`, `49 * (1.0 / 49)`
(which is below 1), `1920.0 / 1080`, `2160 * (1920.0 / 1080)`, `1920 / (1920.0 / 1080)`,
`3000.0 / 1921`, `1.0 / 3` and `3 * (1.0 / 3)` (which is exactly 1). -/
theorem dbl_reference_values :
    Dbl.div (Dbl.ofInt 1) (Dbl.ofInt 49) = ⟨5882252574524729, -58⟩ ∧
    Dbl.eq (Dbl.mul (Dbl.ofInt 49) (Dbl.div (Dbl.ofInt 1) (Dbl.ofInt 49)))
      ⟨9007199254740991, -53⟩ = true ∧
    Dbl.div (Dbl.ofInt 1920) (Dbl.ofInt 1080) = ⟨8006399337547548, -52⟩ ∧
    Dbl.eq (Dbl.mul (Dbl.ofInt 2160) (Dbl.div (Dbl.ofInt 1920) (Dbl.ofInt 1080)))
      (Dbl.ofInt 3840) = true ∧
    Dbl.eq (Dbl.div (Dbl.ofInt 1920) (Dbl.div (Dbl.ofInt 1920) (Dbl.ofInt 1080)))
      (Dbl.ofInt 1080) = true ∧
    Dbl.div (Dbl.ofInt 3000) (Dbl.ofInt 1921) = ⟨7033211286887813, -52⟩ ∧
    Dbl.div (Dbl.ofInt 1) (Dbl.ofInt 3) = ⟨6004799503160661, -54⟩ ∧
    Dbl.eq (Dbl.mul (Dbl.ofInt 3) (Dbl.div (Dbl.ofInt 1) (Dbl.ofInt 3))) (Dbl.ofInt 1) = true := by
  decide

/-! ## Error analysis of the two crop extents -/

theorem ratio_spec (a b : Int) (ha : 0 < a) (hb : 0 < b) :
    0 < (Dbl.div (Dbl.ofInt a) (Dbl.ofInt b)).man ∧
    |(Dbl.div (Dbl.ofInt a) (Dbl.ofInt b)).toRat - (a : ℚ) / b| ≤ (a : ℚ) / b / 2 ^ 53 := by
  have h1 : 0 < (Dbl.ofInt a).man := by unfold Dbl.ofInt; simp only; omega
  have h2 : 0 < (Dbl.ofInt b).man := by unfold Dbl.ofInt; simp only; omega
  refine ⟨Dbl.div_pos _ _ h1 h2, ?_⟩
  have h := Dbl.div_error _ _ h1 h2
  rw [Dbl.toRat_ofInt a (le_of_lt ha), Dbl.toRat_ofInt b (le_of_lt hb)] at h
  exact h

theorem rel_bounds {a x : ℚ} (h : |a - x| ≤ x / 2 ^ 53) :
    x * (1 - 1 / 2 ^ 53) ≤ a ∧ a ≤ x * (1 + 1 / 2 ^ 53) := by
  rw [abs_le] at h
  constructor <;> linarith

/-- Product of an integer and a rounded quotient, rounded again: within `3 * 2 ^ (-53)`. -/
theorem mul_two_step {x e p k : ℚ} (hk : 0 < k) (hx : 0 < x)
    (he : |e - x| ≤ x / 2 ^ 53) (hp : |p - k * e| ≤ k * e / 2 ^ 53) :
    |p - k * x| ≤ k * x * (3 / 2 ^ 53) := by
  obtain ⟨e1, e2⟩ := rel_bounds he
  obtain ⟨p1, p2⟩ := rel_bounds hp
  have hkx : 0 < k * x := mul_pos hk hx
  have ke1 : k * (x * (1 - 1 / 2 ^ 53)) ≤ k * e := mul_le_mul_of_nonneg_left e1 (le_of_lt hk)
  have ke2 : k * e ≤ k * (x * (1 + 1 / 2 ^ 53)) := mul_le_mul_of_nonneg_left e2 (le_of_lt hk)
  have q1 : k * (x * (1 - 1 / 2 ^ 53)) * (1 - 1 / 2 ^ 53) ≤ k * e * (1 - 1 / 2 ^ 53) :=
    mul_le_mul_of_nonneg_right ke1 (by norm_num)
  have q2 : k * e * (1 + 1 / 2 ^ 53) ≤ k * (x * (1 + 1 / 2 ^ 53)) * (1 + 1 / 2 ^ 53) :=
    mul_le_mul_of_nonneg_right ke2 (by norm_num)
  rw [abs_le]
  constructor
  · have : k * x * (1 - 3 / 2 ^ 53) ≤ k * (x * (1 - 1 / 2 ^ 53)) * (1 - 1 / 2 ^ 53) := by
      have e : k * (x * (1 - 1 / 2 ^ 53)) * (1 - 1 / 2 ^ 53)
          = k * x * ((1 - 1 / 2 ^ 53) * (1 - 1 / 2 ^ 53)) := by ring
      rw [e]
      apply mul_le_mul_of_nonneg_left _ (le_of_lt hkx)
      norm_num
    linarith
  · have : k * (x * (1 + 1 / 2 ^ 53)) * (1 + 1 / 2 ^ 53) ≤ k * x * (1 + 3 / 2 ^ 53) := by
      have e : k * (x * (1 + 1 / 2 ^ 53)) * (1 + 1 / 2 ^ 53)
          = k * x * ((1 + 1 / 2 ^ 53) * (1 + 1 / 2 ^ 53)) := by ring
      rw [e]
      apply mul_le_mul_of_nonneg_left _ (le_of_lt hkx)
      norm_num
    linarith

/-- Quotient of an integer by a rounded quotient, rounded again: within `3 * 2 ^ (-53)`. -/
theorem div_two_step {x e p k : ℚ} (hk : 0 < k) (hx : 0 < x)
    (he : |e - x| ≤ x / 2 ^ 53) (hp : |p - k / e| ≤ k / e / 2 ^ 53) :
    |p - k / x| ≤ k / x * (3 / 2 ^ 53) := by
  obtain ⟨e1, e2⟩ := rel_bounds he
  obtain ⟨p1, p2⟩ := rel_bounds hp
  have hlo : 0 < x * (1 - 1 / 2 ^ 53) := mul_pos hx (by norm_num)
  have hhi : 0 < x * (1 + 1 / 2 ^ 53) := mul_pos hx (by norm_num)
  have hepos : 0 < e := lt_of_lt_of_le hlo e1
  have d1 : k / (x * (1 + 1 / 2 ^ 53)) ≤ k / e :=
    div_le_div_of_nonneg_left (le_of_lt hk) hepos e2
  have d2 : k / e ≤ k / (x * (1 - 1 / 2 ^ 53)) :=
    div_le_div_of_nonneg_left (le_of_lt hk) hlo e1
  have hkx : 0 < k / x := div_pos hk hx
  have c1 : k / (x * (1 + 1 / 2 ^ 53)) = k / x * (1 / (1 + 1 / 2 ^ 53)) := by
    field_simp
  have c2 : k / (x * (1 - 1 / 2 ^ 53)) = k / x * (1 / (1 - 1 / 2 ^ 53)) := by
    field_simp
  rw [c1] at d1
  rw [c2] at d2
  have q1 : k / x * (1 / (1 + 1 / 2 ^ 53)) * (1 - 1 / 2 ^ 53) ≤ k / e * (1 - 1 / 2 ^ 53) :=
    mul_le_mul_of_nonneg_right d1 (by norm_num)
  have q2 : k / e * (1 + 1 / 2 ^ 53) ≤ k / x * (1 / (1 - 1 / 2 ^ 53)) * (1 + 1 / 2 ^ 53) :=
    mul_le_mul_of_nonneg_right d2 (by norm_num)
  rw [abs_le]
  constructor
  · have : k / x * (1 - 3 / 2 ^ 53) ≤ k / x * (1 / (1 + 1 / 2 ^ 53)) * (1 - 1 / 2 ^ 53) := by
      rw [mul_assoc]
      apply mul_le_mul_of_nonneg_left _ (le_of_lt hkx)
      norm_num
    linarith
  · have : k / x * (1 / (1 - 1 / 2 ^ 53)) * (1 + 1 / 2 ^ 53) ≤ k / x * (1 + 3 / 2 ^ 53) := by
      rw [mul_assoc]
      apply mul_le_mul_of_nonneg_left _ (le_of_lt hkx)
      norm_num
    linarith

/-- Truncating a value within `3 * 2 ^ (-53)` of `X ≤ 2 ^ 32` gives an integer in
`(X - 2, X + 1)`. -/
theorem trunc_close {X P : ℚ} (hX : X ≤ 2 ^ 32)
    (hP : |P - X| ≤ X * (3 / 2 ^ 53)) : X - 2 < (⌊P⌋ : ℚ) ∧ (⌊P⌋ : ℚ) < X + 1 := by
  have h1 := Int.floor_le P
  have h2 := Int.lt_floor_add_one P
  have hb : X * (3 / 2 ^ 53) ≤ 2 ^ 32 * (3 / 2 ^ 53) :=
    mul_le_mul_of_nonneg_right hX (by norm_num)
  have hb2 : (2 : ℚ) ^ 32 * (3 / 2 ^ 53) < 1 := by norm_num
  rw [abs_le] at hP
  constructor <;> linarith

theorem ofInt_man_pos (a : Int) (ha : 0 < a) : 0 < (Dbl.ofInt a).man := by
  unfold Dbl.ofInt; simp only; omega

/-- The wide branch: `correctedWidth` is the truncation of a double within two pixels of the
exactly proportional width, and it does not exceed the image width. -/
theorem correctedWidth_spec (input : Mat) (screen : Screen)
    (hc : 0 < input.cols) (hc2 : input.cols < 2 ^ 31) (hr : 0 < input.rows)
    (hw : 0 < screen.width) (hh : 0 < screen.height)
    (hlt : Dbl.lt (expectedRatioOf screen) (imageRatioOf input) = true) :
    0 ≤ correctedWidthOf input screen ∧ correctedWidthOf input screen ≤ input.cols ∧
    input.rows * screen.width - 2 * screen.height < correctedWidthOf input screen * screen.height ∧
    correctedWidthOf input screen * screen.height < input.rows * screen.width + screen.height := by
  obtain ⟨eman, eerr⟩ := ratio_spec screen.width screen.height hw hh
  obtain ⟨_, ierr⟩ := ratio_spec input.cols input.rows hc hr
  have hlt2 := (Dbl.lt_iff _ _).mp hlt
  have perr := Dbl.mul_error (Dbl.ofInt input.rows) (expectedRatioOf screen)
    (ofInt_man_pos _ hr) eman
  rw [Dbl.toRat_ofInt _ (le_of_lt hr)] at perr
  have hfloor : correctedWidthOf input screen
      = ⌊(Dbl.mul (Dbl.ofInt input.rows) (expectedRatioOf screen)).toRat⌋ :=
    Dbl.toInt_eq_floor _
  have hPnn := Dbl.toRat_nonneg (Dbl.mul (Dbl.ofInt input.rows) (expectedRatioOf screen))
  unfold expectedRatioOf imageRatioOf at *
  generalize (Dbl.div (Dbl.ofInt screen.width) (Dbl.ofInt screen.height)).toRat = E at *
  generalize (Dbl.div (Dbl.ofInt input.cols) (Dbl.ofInt input.rows)).toRat = I at *
  generalize (Dbl.mul (Dbl.ofInt input.rows)
    (Dbl.div (Dbl.ofInt screen.width) (Dbl.ofInt screen.height))).toRat = P at *
  rw [hfloor]
  have hcq : (0 : ℚ) < input.cols := by exact_mod_cast hc
  have hc2q : (input.cols : ℚ) < 2 ^ 31 := by exact_mod_cast hc2
  have hrq : (0 : ℚ) < input.rows := by exact_mod_cast hr
  have hwq : (0 : ℚ) < screen.width := by exact_mod_cast hw
  have hhq : (0 : ℚ) < screen.height := by exact_mod_cast hh
  have hx : (0 : ℚ) < (screen.width : ℚ) / screen.height := div_pos hwq hhq
  obtain ⟨e1, e2⟩ := rel_bounds eerr
  obtain ⟨i1, i2⟩ := rel_bounds ierr
  obtain ⟨p1, p2⟩ := rel_bounds perr
  have hEpos : 0 < E := lt_of_lt_of_le (mul_pos hx (by norm_num)) e1
  have hcancel : (input.rows : ℚ) * ((input.cols : ℚ) / input.rows) = input.cols := by
    field_simp
  -- rows * E < cols * (1 + u)
  have hRE : (input.rows : ℚ) * E < input.cols * (1 + 1 / 2 ^ 53) := by
    calc (input.rows : ℚ) * E < input.rows * I := mul_lt_mul_of_pos_left hlt2 hrq
      _ ≤ input.rows * ((input.cols : ℚ) / input.rows * (1 + 1 / 2 ^ 53)) :=
          mul_le_mul_of_nonneg_left i2 (le_of_lt hrq)
      _ = input.cols * (1 + 1 / 2 ^ 53) := by rw [← mul_assoc, hcancel]
  have hP1 : P < input.cols + 1 := by
    have a : (input.rows : ℚ) * E * (1 + 1 / 2 ^ 53)
        < input.cols * (1 + 1 / 2 ^ 53) * (1 + 1 / 2 ^ 53) :=
      mul_lt_mul_of_pos_right hRE (by norm_num)
    have b : (input.cols : ℚ) * (1 + 1 / 2 ^ 53) * (1 + 1 / 2 ^ 53)
        = input.cols + input.cols * (2 / 2 ^ 53 + 1 / 2 ^ 106) := by ring
    have c : (input.cols : ℚ) * (2 / 2 ^ 53 + 1 / 2 ^ 106) ≤ 2 ^ 31 * (2 / 2 ^ 53 + 1 / 2 ^ 106) :=
      mul_le_mul_of_nonneg_right (le_of_lt hc2q) (by norm_num)
    have d : (2 : ℚ) ^ 31 * (2 / 2 ^ 53 + 1 / 2 ^ 106) < 1 := by norm_num
    linarith
  have hX : (input.rows : ℚ) * ((screen.width : ℚ) / screen.height) ≤ 2 ^ 32 := by
    have a : (input.rows : ℚ) * ((screen.width : ℚ) / screen.height * (1 - 1 / 2 ^ 53))
        ≤ input.rows * E := mul_le_mul_of_nonneg_left e1 (le_of_lt hrq)
    have b : (input.cols : ℚ) * (1 + 1 / 2 ^ 53) ≤ 2 ^ 31 * (1 + 1 / 2 ^ 53) :=
      mul_le_mul_of_nonneg_right (le_of_lt hc2q) (by norm_num)
    have c : (input.rows : ℚ) * ((screen.width : ℚ) / screen.height) * (1 - 1 / 2 ^ 53)
        < 2 ^ 31 * (1 + 1 / 2 ^ 53) := by
      rw [mul_assoc]; linarith
    by_contra hcon
    push_neg at hcon
    have d := mul_lt_mul_of_pos_right hcon (show (0 : ℚ) < 1 - 1 / 2 ^ 53 by norm_num)
    have e : (2 : ℚ) ^ 31 * (1 + 1 / 2 ^ 53) ≤ 2 ^ 32 * (1 - 1 / 2 ^ 53) := by norm_num
    linarith
  have h3 := mul_two_step hrq hx eerr perr
  obtain ⟨t1, t2⟩ := trunc_close hX h3
  have hXh : (input.rows : ℚ) * ((screen.width : ℚ) / screen.height) * screen.height
      = input.rows * screen.width := by
    field_simp
  refine ⟨Int.floor_nonneg.mpr hPnn, ?_, ?_, ?_⟩
  · have : ⌊P⌋ < input.cols + 1 := by
      rw [Int.floor_lt]; push_cast; exact hP1
    omega
  · have a := mul_lt_mul_of_pos_right t1 hhq
    rw [sub_mul, hXh] at a
    exact_mod_cast a
  · have a := mul_lt_mul_of_pos_right t2 hhq
    rw [add_mul, hXh, one_mul] at a
    exact_mod_cast a

/-- The tall branch: `correctedHeight` is the truncation of a double within two pixels of the
exactly proportional height, and it does not exceed the image height. -/
theorem correctedHeight_spec (input : Mat) (screen : Screen)
    (hc : 0 < input.cols) (hr : 0 < input.rows) (hr2 : input.rows < 2 ^ 31)
    (hw : 0 < screen.width) (hh : 0 < screen.height)
    (hlt : Dbl.lt (expectedRatioOf screen) (imageRatioOf input) = false)
    (hne : Dbl.eq (expectedRatioOf screen) (imageRatioOf input) = false) :
    0 ≤ correctedHeightOf input screen ∧ correctedHeightOf input screen ≤ input.rows ∧
    input.cols * screen.height - 2 * screen.width < correctedHeightOf input screen * screen.width ∧
    correctedHeightOf input screen * screen.width < input.cols * screen.height + screen.width := by
  obtain ⟨eman, eerr⟩ := ratio_spec screen.width screen.height hw hh
  obtain ⟨iman, ierr⟩ := ratio_spec input.cols input.rows hc hr
  have hgt : (imageRatioOf input).toRat < (expectedRatioOf screen).toRat := by
    have a : ¬ (expectedRatioOf screen).toRat < (imageRatioOf input).toRat := by
      rw [← Dbl.lt_iff, hlt]; simp
    have b : ¬ (expectedRatioOf screen).toRat = (imageRatioOf input).toRat := by
      rw [← Dbl.eq_iff, hne]; simp
    rcases lt_trichotomy (expectedRatioOf screen).toRat (imageRatioOf input).toRat with h | h | h
    · exact absurd h a
    · exact absurd h b
    · exact h
  have qerr := Dbl.div_error (Dbl.ofInt input.cols) (expectedRatioOf screen)
    (ofInt_man_pos _ hc) eman
  rw [Dbl.toRat_ofInt _ (le_of_lt hc)] at qerr
  have hfloor : correctedHeightOf input screen
      = ⌊(Dbl.div (Dbl.ofInt input.cols) (expectedRatioOf screen)).toRat⌋ :=
    Dbl.toInt_eq_floor _
  have hQnn := Dbl.toRat_nonneg (Dbl.div (Dbl.ofInt input.cols) (expectedRatioOf screen))
  unfold expectedRatioOf imageRatioOf at *
  generalize (Dbl.div (Dbl.ofInt screen.width) (Dbl.ofInt screen.height)).toRat = E at *
  generalize (Dbl.div (Dbl.ofInt input.cols) (Dbl.ofInt input.rows)).toRat = I at *
  generalize (Dbl.div (Dbl.ofInt input.cols)
    (Dbl.div (Dbl.ofInt screen.width) (Dbl.ofInt screen.height))).toRat = Q at *
  rw [hfloor]
  have hcq : (0 : ℚ) < input.cols := by exact_mod_cast hc
  have hrq : (0 : ℚ) < input.rows := by exact_mod_cast hr
  have hr2q : (input.rows : ℚ) < 2 ^ 31 := by exact_mod_cast hr2
  have hwq : (0 : ℚ) < screen.width := by exact_mod_cast hw
  have hhq : (0 : ℚ) < screen.height := by exact_mod_cast hh
  have hx : (0 : ℚ) < (screen.width : ℚ) / screen.height := div_pos hwq hhq
  have hri : (0 : ℚ) < (input.cols : ℚ) / input.rows := div_pos hcq hrq
  obtain ⟨e1, e2⟩ := rel_bounds eerr
  obtain ⟨i1, i2⟩ := rel_bounds ierr
  obtain ⟨q1, q2⟩ := rel_bounds qerr
  have hIlo : 0 < (input.cols : ℚ) / input.rows * (1 - 1 / 2 ^ 53) := mul_pos hri (by norm_num)
  have hIpos : 0 < I := lt_of_lt_of_le hIlo i1
  have hEpos : 0 < E := lt_trans hIpos hgt
  -- cols / E < rows / (1 - u)
  have hWE : (input.cols : ℚ) / E < input.rows * (1 / (1 - 1 / 2 ^ 53)) := by
    calc (input.cols : ℚ) / E < input.cols / I := div_lt_div_of_pos_left hcq hIpos hgt
      _ ≤ input.cols / ((input.cols : ℚ) / input.rows * (1 - 1 / 2 ^ 53)) :=
          div_le_div_of_nonneg_left (le_of_lt hcq) hIlo i1
      _ = input.rows * (1 / (1 - 1 / 2 ^ 53)) := by field_simp; ring
  have hQ1 : Q < input.rows + 1 := by
    have a : (input.cols : ℚ) / E * (1 + 1 / 2 ^ 53)
        < input.rows * (1 / (1 - 1 / 2 ^ 53)) * (1 + 1 / 2 ^ 53) :=
      mul_lt_mul_of_pos_right hWE (by norm_num)
    have b : (input.rows : ℚ) * (1 / (1 - 1 / 2 ^ 53)) * (1 + 1 / 2 ^ 53)
        ≤ input.rows * (1 + 3 / 2 ^ 53) := by
      rw [mul_assoc]
      apply mul_le_mul_of_nonneg_left _ (le_of_lt hrq)
      norm_num
    have c : (input.rows : ℚ) * (3 / 2 ^ 53) ≤ 2 ^ 31 * (3 / 2 ^ 53) :=
      mul_le_mul_of_nonneg_right (le_of_lt hr2q) (by norm_num)
    have d : (2 : ℚ) ^ 31 * (3 / 2 ^ 53) < 1 := by norm_num
    linarith
  have hY : (input.cols : ℚ) / ((screen.width : ℚ) / screen.height) ≤ 2 ^ 32 := by
    have a : (input.cols : ℚ) / ((screen.width : ℚ) / screen.height * (1 + 1 / 2 ^ 53))
        ≤ input.cols / E :=
      div_le_div_of_nonneg_left (le_of_lt hcq) hEpos e2
    have a2 : (input.cols : ℚ) / ((screen.width : ℚ) / screen.height * (1 + 1 / 2 ^ 53))
        = input.cols / ((screen.width : ℚ) / screen.height) * (1 / (1 + 1 / 2 ^ 53)) := by
      field_simp; ring
    rw [a2] at a
    by_contra hcon
    push_neg at hcon
    have d := mul_lt_mul_of_pos_right hcon (show (0 : ℚ) < 1 / (1 + 1 / 2 ^ 53) by norm_num)
    have b : (input.rows : ℚ) * (1 / (1 - 1 / 2 ^ 53)) ≤ 2 ^ 31 * (1 / (1 - 1 / 2 ^ 53)) :=
      mul_le_mul_of_nonneg_right (le_of_lt hr2q) (by norm_num)
    have e : (2 : ℚ) ^ 31 * (1 / (1 - 1 / 2 ^ 53)) ≤ 2 ^ 32 * (1 / (1 + 1 / 2 ^ 53)) := by
      norm_num
    linarith
  have h3 := div_two_step hcq hx eerr qerr
  obtain ⟨t1, t2⟩ := trunc_close hY h3
  have hYw : (input.cols : ℚ) / ((screen.width : ℚ) / screen.height) * screen.width
      = input.cols * screen.height := by
    field_simp
  refine ⟨Int.floor_nonneg.mpr hQnn, ?_, ?_, ?_⟩
  · have : ⌊Q⌋ < input.rows + 1 := by
      rw [Int.floor_lt]; push_cast; exact hQ1
    omega
  · have a := mul_lt_mul_of_pos_right t1 hwq
    rw [sub_mul, hYw] at a
    exact_mod_cast a
  · have a := mul_lt_mul_of_pos_right t2 hwq
    rw [add_mul, hYw, one_mul] at a
    exact_mod_cast a

/-- Rounding is monotone in the exact quotient. -/
theorem roundDbl_mono (n d n1 d1 : Nat) (s : Int) (hn : 0 < n) (hd : 0 < d) (hn1 : 0 < n1)
    (hd1 : 0 < d1) (h : (n : ℚ) / d ≤ (n1 : ℚ) / d1) :
    (roundDbl n d s).toRat ≤ (roundDbl n1 d1 s).toRat := by
  rw [roundDbl_toRat n d s hn hd, roundDbl_toRat n1 d1 s hn1 hd1]
  obtain ⟨a1, a2⟩ := ilog2Ratio_spec n d hn hd
  obtain ⟨b1, b2⟩ := ilog2Ratio_spec n1 d1 hn1 hd1
  generalize ilog2Ratio n d = e at a1 a2 ⊢
  generalize ilog2Ratio n1 d1 = e1 at b1 b2 ⊢
  generalize (n : ℚ) / d = x at h a1 a2 ⊢
  generalize (n1 : ℚ) / d1 = x1 at h b1 b2 ⊢
  have hee : e ≤ e1 := by
    have : (2 : ℚ) ^ e < (2 : ℚ) ^ (e1 + 1) := lt_of_le_of_lt a1 (lt_of_le_of_lt h b2)
    rw [zpow_lt_zpow_iff_right₀ (by norm_num)] at this
    omega
  rcases eq_or_lt_of_le hee with heq | hlt
  · subst heq
    have hp : (0 : ℚ) < (2 : ℚ) ^ (52 - e) := by positivity
    have hm : x * (2 : ℚ) ^ (52 - e) ≤ x1 * (2 : ℚ) ^ (52 - e) :=
      mul_le_mul_of_nonneg_right h (le_of_lt hp)
    have hr : (rneQ (x * (2 : ℚ) ^ (52 - e)) : ℚ) ≤ (rneQ (x1 * (2 : ℚ) ^ (52 - e)) : ℚ) := by
      exact_mod_cast rneQ_mono hm
    exact mul_le_mul_of_nonneg_right hr (by positivity)
  · have hup : x * (2 : ℚ) ^ (52 - e) ≤ (((2 : Int) ^ 53 : Int) : ℚ) := by
      have : (((2 : Int) ^ 53 : Int) : ℚ) = (2 : ℚ) ^ (e + 1) * (2 : ℚ) ^ (52 - e) := by
        rw [← zpow_add₀ (by norm_num), show e + 1 + (52 - e) = 53 by ring]
        norm_num
      rw [this]
      exact mul_le_mul_of_nonneg_right (le_of_lt a2) (by positivity)
    have hlo : (((2 : Int) ^ 52 : Int) : ℚ) ≤ x1 * (2 : ℚ) ^ (52 - e1) := by
      have : (((2 : Int) ^ 52 : Int) : ℚ) = (2 : ℚ) ^ e1 * (2 : ℚ) ^ (52 - e1) := by
        rw [← zpow_add₀ (by norm_num), show e1 + (52 - e1) = 52 by ring]
        norm_num
      rw [this]
      exact mul_le_mul_of_nonneg_right b1 (by positivity)
    have r1 := rneQ_mono hup
    have r2 := rneQ_mono hlo
    rw [rneQ_intCast] at r1 r2
    have r1q : (rneQ (x * (2 : ℚ) ^ (52 - e)) : ℚ) ≤ (2 : ℚ) ^ (53 : Int) := by
      have : ((rneQ (x * (2 : ℚ) ^ (52 - e)) : Int) : ℚ) ≤ (((2 : Int) ^ 53 : Int) : ℚ) := by
        exact_mod_cast r1
      refine le_trans this ?_
      norm_num
    have r2q : (2 : ℚ) ^ (52 : Int) ≤ (rneQ (x1 * (2 : ℚ) ^ (52 - e1)) : ℚ) := by
      have : (((2 : Int) ^ 52 : Int) : ℚ) ≤ ((rneQ (x1 * (2 : ℚ) ^ (52 - e1)) : Int) : ℚ) := by
        exact_mod_cast r2
      refine le_trans ?_ this
      norm_num
    calc (rneQ (x * (2 : ℚ) ^ (52 - e)) : ℚ) * (2 : ℚ) ^ (s - (52 - e))
        ≤ (2 : ℚ) ^ (53 : Int) * (2 : ℚ) ^ (s - (52 - e)) :=
          mul_le_mul_of_nonneg_right r1q (by positivity)
      _ = (2 : ℚ) ^ (s + e + 1) := by
          rw [← zpow_add₀ (by norm_num)]; congr 1; ring
      _ ≤ (2 : ℚ) ^ (s + e1) := zpow_le_zpow_right₀ (by norm_num) (by omega)
      _ = (2 : ℚ) ^ (52 : Int) * (2 : ℚ) ^ (s - (52 - e1)) := by
          rw [← zpow_add₀ (by norm_num)]; congr 1; ring
      _ ≤ (rneQ (x1 * (2 : ℚ) ^ (52 - e1)) : ℚ) * (2 : ℚ) ^ (s - (52 - e1)) :=
          mul_le_mul_of_nonneg_right r2q (by positivity)

/-- A strict comparison of two double quotients of positive integers implies the same strict
comparison of the exact quotients. -/
theorem ratio_lt_exact (a b c d : Int) (ha : 0 < a) (hb : 0 < b) (hc : 0 < c) (hd : 0 < d)
    (h : Dbl.lt (Dbl.div (Dbl.ofInt a) (Dbl.ofInt b)) (Dbl.div (Dbl.ofInt c) (Dbl.ofInt d)) = true) :
    a * d < c * b := by
  by_contra hcon
  push_neg at hcon
  have h2 := (Dbl.lt_iff _ _).mp h
  have hq : ((c.toNat : Nat) : ℚ) / (d.toNat : Nat) ≤ ((a.toNat : Nat) : ℚ) / (b.toNat : Nat) := by
    have e1 : ((a.toNat : Nat) : ℚ) = (a : ℚ) := by
      have : ((a.toNat : Int) : ℚ) = (a : ℚ) := by rw [Int.toNat_of_nonneg (le_of_lt ha)]
      rw [← this, Int.cast_natCast]
    have e2 : ((b.toNat : Nat) : ℚ) = (b : ℚ) := by
      have : ((b.toNat : Int) : ℚ) = (b : ℚ) := by rw [Int.toNat_of_nonneg (le_of_lt hb)]
      rw [← this, Int.cast_natCast]
    have e3 : ((c.toNat : Nat) : ℚ) = (c : ℚ) := by
      have : ((c.toNat : Int) : ℚ) = (c : ℚ) := by rw [Int.toNat_of_nonneg (le_of_lt hc)]
      rw [← this, Int.cast_natCast]
    have e4 : ((d.toNat : Nat) : ℚ) = (d : ℚ) := by
      have : ((d.toNat : Int) : ℚ) = (d : ℚ) := by rw [Int.toNat_of_nonneg (le_of_lt hd)]
      rw [← this, Int.cast_natCast]
    rw [e1, e2, e3, e4]
    have hbq : (0 : ℚ) < b := by exact_mod_cast hb
    have hdq : (0 : ℚ) < d := by exact_mod_cast hd
    rw [div_le_div_iff₀ hdq hbq]
    exact_mod_cast hcon
  have hm := roundDbl_mono c.toNat d.toNat a.toNat b.toNat (0 - 0) (by omega) (by omega)
    (by omega) (by omega) hq
  have e5 : Dbl.div (Dbl.ofInt a) (Dbl.ofInt b) = roundDbl a.toNat b.toNat (0 - 0) := rfl
  have e6 : Dbl.div (Dbl.ofInt c) (Dbl.ofInt d) = roundDbl c.toNat d.toNat (0 - 0) := rfl
  rw [e5, e6] at h2
  linarith

/-- Equal exact quotients of positive integers give the same double quotient. -/
theorem ratio_congr (a b c d : Int) (ha : 0 < a) (hb : 0 < b) (hc : 0 < c) (hd : 0 < d)
    (h : a * d = c * b) :
    Dbl.div (Dbl.ofInt a) (Dbl.ofInt b) = Dbl.div (Dbl.ofInt c) (Dbl.ofInt d) := by
  have e5 : Dbl.div (Dbl.ofInt a) (Dbl.ofInt b) = roundDbl a.toNat b.toNat (0 - 0) := rfl
  have e6 : Dbl.div (Dbl.ofInt c) (Dbl.ofInt d) = roundDbl c.toNat d.toNat (0 - 0) := rfl
  rw [e5, e6]
  apply roundDbl_congr _ _ _ _ _ (by omega) (by omega) (by omega) (by omega)
  have : ((a.toNat * d.toNat : Nat) : Int) = ((c.toNat * b.toNat : Nat) : Int) := by
    push_cast
    rw [Int.toNat_of_nonneg (le_of_lt ha), Int.toNat_of_nonneg (le_of_lt hb),
      Int.toNat_of_nonneg (le_of_lt hc), Int.toNat_of_nonneg (le_of_lt hd)]
    exact h
  exact_mod_cast this

/-! ## `cropImage` -/

theorem shiftRight_one_eq_fdiv (m : Int) : m >>> (1 : Nat) = Int.fdiv m 2 := by
  rw [Int.shiftRight_eq_div_pow, Int.fdiv_eq_ediv m (by norm_num)]
  norm_num

theorem roi_full (input : Mat) (hc : 0 < input.cols) (hr : 0 < input.rows) :
    input.roi ⟨0, 0, input.cols, input.rows⟩ = .ok input := by
  unfold Mat.roi
  have h1 : (0 : Int) ≤ 0 ∧ 0 ≤ input.cols ∧ 0 + input.cols ≤ input.cols ∧
      (0 : Int) ≤ 0 ∧ 0 ≤ input.rows ∧ 0 + input.rows ≤ input.rows := by omega
  have h2 : ¬ (input.rows ≤ 0 ∨ input.cols ≤ 0) := by omega
  simp only [h1, h2, and_self, if_true, if_false, add_zero]

theorem roi_ok (input : Mat) (r : Rect)
    (h : 0 ≤ r.x ∧ 0 ≤ r.width ∧ r.x + r.width ≤ input.cols ∧
      0 ≤ r.y ∧ 0 ≤ r.height ∧ r.y + r.height ≤ input.rows) :
    ∃ out, input.roi r = .ok out ∧ out.cols ≤ r.width ∧ out.rows ≤ r.height ∧
      0 ≤ out.cols ∧ 0 ≤ out.rows ∧
      (0 < r.width → 0 < r.height →
        out = ⟨input.buf, input.offX + r.x, input.offY + r.y, r.width, r.height⟩) ∧
      ((r.width = 0 ∨ r.height = 0) → out = Mat.released) := by
  unfold Mat.roi
  simp only [h, and_self, if_true]
  by_cases he : r.height ≤ 0 ∨ r.width ≤ 0
  · simp only [he, if_true]
    refine ⟨_, rfl, ?_, ?_, ?_, ?_, ?_, ?_⟩
    · show (0 : Int) ≤ r.width
      omega
    · show (0 : Int) ≤ r.height
      omega
    · exact le_refl _
    · exact le_refl _
    · intro h1 h2; omega
    · intro _; rfl
  · simp only [he, if_false]
    refine ⟨_, rfl, ?_, ?_, ?_, ?_, ?_, ?_⟩
    · exact le_refl _
    · exact le_refl _
    · show (0 : Int) ≤ r.width
      omega
    · show (0 : Int) ≤ r.height
      omega
    · intro _ _; rfl
    · intro h1; omega

theorem cropImage_same (input : Mat) (screen : Screen)
    (h : Dbl.eq (expectedRatioOf screen) (imageRatioOf input) = true) :
    cropImage input screen = .ok input := by
  unfold cropImage
  simp only [h, if_true]

theorem cropImage_wide (input : Mat) (screen : Screen)
    (hne : Dbl.eq (expectedRatioOf screen) (imageRatioOf input) = false)
    (hlt : Dbl.lt (expectedRatioOf screen) (imageRatioOf input) = true) :
    cropImage input screen =
      input.roi ⟨Int.fdiv (input.cols - correctedWidthOf input screen) 2, 0,
        correctedWidthOf input screen, input.rows⟩ := by
  unfold cropImage
  simp only [hne, hlt, if_true, Bool.false_eq_true, if_false, shiftRight_one_eq_fdiv]

theorem cropImage_tall (input : Mat) (screen : Screen)
    (hne : Dbl.eq (expectedRatioOf screen) (imageRatioOf input) = false)
    (hlt : Dbl.lt (expectedRatioOf screen) (imageRatioOf input) = false) :
    cropImage input screen =
      input.roi ⟨0, Int.fdiv (input.rows - correctedHeightOf input screen) 2,
        input.cols, correctedHeightOf input screen⟩ := by
  unfold cropImage
  simp only [hne, hlt, Bool.false_eq_true, if_false, shiftRight_one_eq_fdiv]

/-- The rectangle `cropImage` cuts out of its input always lies inside the input, is centred,
and leaves one axis untouched. -/
theorem cropImage_rect (input : Mat) (screen : Screen)
    (hc : 0 < input.cols) (hc2 : input.cols < 2 ^ 31)
    (hr : 0 < input.rows) (hr2 : input.rows < 2 ^ 31)
    (hw : 0 < screen.width) (hh : 0 < screen.height) :
    ∃ r : Rect, cropImage input screen = input.roi r ∧
      r.x = Int.fdiv (input.cols - r.width) 2 ∧ r.y = Int.fdiv (input.rows - r.height) 2 ∧
      ((r.width = input.cols ∧ r.x = 0) ∨ (r.height = input.rows ∧ r.y = 0)) ∧
      0 ≤ r.x ∧ 0 ≤ r.y ∧ 0 ≤ r.width ∧ 0 ≤ r.height ∧
      r.x + r.width ≤ input.cols ∧ r.y + r.height ≤ input.rows ∧
      (input.rows * screen.width - 2 * screen.height < r.width * screen.height ∧
        r.width * screen.height < input.rows * screen.width + screen.height ∧
        r.height = input.rows ∨
       input.cols * screen.height - 2 * screen.width < r.height * screen.width ∧
        r.height * screen.width < input.cols * screen.height + screen.width ∧
        r.width = input.cols ∨
       r.width = input.cols ∧ r.height = input.rows ∧
        Dbl.eq (expectedRatioOf screen) (imageRatioOf input) = true) := by
  have f0 : Int.fdiv 0 2 = 0 := by decide
  cases hne : Dbl.eq (expectedRatioOf screen) (imageRatioOf input)
  · cases hlt : Dbl.lt (expectedRatioOf screen) (imageRatioOf input)
    · obtain ⟨a, b, c, d⟩ := correctedHeight_spec input screen hc hr hr2 hw hh hlt hne
      refine ⟨⟨0, Int.fdiv (input.rows - correctedHeightOf input screen) 2,
        input.cols, correctedHeightOf input screen⟩, cropImage_tall input screen hne hlt, ?_⟩
      simp only [sub_self, f0]
      rw [Int.fdiv_eq_ediv _ (by norm_num)]
      refine ⟨trivial, trivial, Or.inl ⟨trivial, trivial⟩, le_refl _, ?_, ?_, a, ?_, ?_,
        Or.inr (Or.inl ⟨c, d, trivial⟩)⟩ <;> omega
    · obtain ⟨a, b, c, d⟩ := correctedWidth_spec input screen hc hc2 hr hw hh hlt
      refine ⟨⟨Int.fdiv (input.cols - correctedWidthOf input screen) 2, 0,
        correctedWidthOf input screen, input.rows⟩, cropImage_wide input screen hne hlt, ?_⟩
      simp only [sub_self, f0]
      rw [Int.fdiv_eq_ediv _ (by norm_num)]
      refine ⟨trivial, trivial, Or.inr ⟨trivial, trivial⟩, ?_, le_refl _, a, ?_, ?_, ?_,
        Or.inl ⟨c, d, trivial⟩⟩ <;> omega
  · refine ⟨⟨0, 0, input.cols, input.rows⟩, ?_, ?_⟩
    · rw [cropImage_same input screen hne, roi_full input hc hr]
    · simp only [sub_self, f0]
      refine ⟨trivial, trivial, Or.inl ⟨trivial, trivial⟩, le_refl _, le_refl _, ?_, ?_, ?_, ?_,
        Or.inr (Or.inr ⟨trivial, trivial, trivial⟩)⟩ <;> omega

theorem same_ratio_close (input : Mat) (screen : Screen)
    (hc : 0 < input.cols) (hc2 : input.cols < 2 ^ 31)
    (hr : 0 < input.rows) (hr2 : input.rows < 2 ^ 31)
    (hw : 0 < screen.width) (hh : 0 < screen.height)
    (he : Dbl.eq (expectedRatioOf screen) (imageRatioOf input) = true) :
    |input.cols * screen.height - input.rows * screen.width| < max screen.width screen.height := by
  obtain ⟨_, eerr⟩ := ratio_spec screen.width screen.height hw hh
  obtain ⟨_, ierr⟩ := ratio_spec input.cols input.rows hc hr
  have heq := (Dbl.eq_iff _ _).mp he
  unfold expectedRatioOf imageRatioOf at heq
  rw [heq] at eerr
  generalize (Dbl.div (Dbl.ofInt input.cols) (Dbl.ofInt input.rows)).toRat = I at *
  have hcq : (0 : ℚ) < input.cols := by exact_mod_cast hc
  have hc2q : (input.cols : ℚ) < 2 ^ 31 := by exact_mod_cast hc2
  have hrq : (0 : ℚ) < input.rows := by exact_mod_cast hr
  have hr2q : (input.rows : ℚ) < 2 ^ 31 := by exact_mod_cast hr2
  have hwq : (0 : ℚ) < screen.width := by exact_mod_cast hw
  have hhq : (0 : ℚ) < screen.height := by exact_mod_cast hh
  obtain ⟨e1, e2⟩ := rel_bounds eerr
  obtain ⟨i1, i2⟩ := rel_bounds ierr
  have hprod : (0 : ℚ) < input.rows * screen.height := mul_pos hrq hhq
  -- clear denominators
  have a1 : (screen.width : ℚ) / screen.height * (1 - 1 / 2 ^ 53) * (input.rows * screen.height)
      = input.rows * screen.width * (1 - 1 / 2 ^ 53) := by field_simp; ring
  have a2 : (input.cols : ℚ) / input.rows * (1 + 1 / 2 ^ 53) * (input.rows * screen.height)
      = input.cols * screen.height * (1 + 1 / 2 ^ 53) := by field_simp; ring
  have a3 : (input.cols : ℚ) / input.rows * (1 - 1 / 2 ^ 53) * (input.rows * screen.height)
      = input.cols * screen.height * (1 - 1 / 2 ^ 53) := by field_simp; ring
  have a4 : (screen.width : ℚ) / screen.height * (1 + 1 / 2 ^ 53) * (input.rows * screen.height)
      = input.rows * screen.width * (1 + 1 / 2 ^ 53) := by field_simp; ring
  have b1 := mul_le_mul_of_nonneg_right (le_trans e1 i2) (le_of_lt hprod)
  have b2 := mul_le_mul_of_nonneg_right (le_trans i1 e2) (le_of_lt hprod)
  rw [a1, a2] at b1
  rw [a3, a4] at b2
  have hm1 : (screen.width : ℚ) ≤ max screen.width screen.height := by
    exact_mod_cast le_max_left screen.width screen.height
  have hm2 : (screen.height : ℚ) ≤ max screen.width screen.height := by
    exact_mod_cast le_max_right screen.width screen.height
  have hmpos : (0 : ℚ) < ((max screen.width screen.height : Int) : ℚ) := lt_of_lt_of_le hwq hm1
  have c1 : (input.rows : ℚ) * screen.width ≤ 2 ^ 31 * (max screen.width screen.height : Int) :=
    mul_le_mul (le_of_lt hr2q) hm1 (le_of_lt hwq) (by norm_num)
  have c2 : (input.cols : ℚ) * screen.height ≤ 2 ^ 31 * (max screen.width screen.height : Int) :=
    mul_le_mul (le_of_lt hc2q) hm2 (le_of_lt hhq) (by norm_num)
  have key : |(input.cols : ℚ) * screen.height - input.rows * screen.width|
      < ((max screen.width screen.height : Int) : ℚ) := by
    rw [abs_lt]
    constructor <;> nlinarith
  exact_mod_cast key

/-- C5: for an image and a screen with positive dimensions and equal aspect ratios
(`image.width * screen.height = image.height * screen.width`), `cropImage` returns its input
unchanged: the same header onto the same pixels, no crop applied. -/
theorem cropImage_equal_aspect_unchanged (input : Mat) (screen : Screen)
    (hc : 0 < input.cols) (hr : 0 < input.rows)
    (hw : 0 < screen.width) (hh : 0 < screen.height)
    (h : input.cols * screen.height = input.rows * screen.width) :
    cropImage input screen = .ok input := by
  apply cropImage_same
  have e : expectedRatioOf screen = imageRatioOf input := by
    unfold expectedRatioOf imageRatioOf
    apply ratio_congr _ _ _ _ hw hh hc hr
    rw [mul_comm screen.width, ← h]
  rw [e, Dbl.eq_iff]

/-- Instances of C5: a square photo on a square screen, and a 16:9 photo on a 16:9 screen. -/
theorem cropImage_equal_aspect_unchanged_witness :
    cropImage (gradientImage 1000 1000) ⟨0, 0, 1080, 1080⟩ = .ok (gradientImage 1000 1000) ∧
    cropImage (gradientImage 3840 2160) ⟨1920, 0, 1920, 1080⟩ = .ok (gradientImage 3840 2160) :=
  ⟨cropImage_equal_aspect_unchanged (gradientImage 1000 1000) ⟨0, 0, 1080, 1080⟩
      (by decide) (by decide) (by decide) (by decide) (by decide),
   cropImage_equal_aspect_unchanged (gradientImage 3840 2160) ⟨1920, 0, 1920, 1080⟩
      (by decide) (by decide) (by decide) (by decide) (by decide)⟩

/-- C4: for an image and a screen with positive dimensions, `cropImage` returns the window `r`
of its input, whose width and height do not exceed the input's; the offset of `r` along each
axis is `floor((original extent - cropped extent) / 2)`, hence `0` on an axis that is not
cropped and never negative, and `r` ends inside the input on both axes. -/
theorem cropImage_shrinks_and_centres (input : Mat) (screen : Screen)
    (hc : 0 < input.cols) (hc2 : input.cols < 2 ^ 31)
    (hr : 0 < input.rows) (hr2 : input.rows < 2 ^ 31)
    (hw : 0 < screen.width) (hh : 0 < screen.height) :
    ∃ (r : Rect) (out : Mat), cropImage input screen = .ok out ∧ input.roi r = .ok out ∧
      out.cols ≤ input.cols ∧ out.rows ≤ input.rows ∧
      r.width ≤ input.cols ∧ r.height ≤ input.rows ∧
      r.x = Int.fdiv (input.cols - r.width) 2 ∧ r.y = Int.fdiv (input.rows - r.height) 2 ∧
      (r.width = input.cols → r.x = 0) ∧ (r.height = input.rows → r.y = 0) ∧
      0 ≤ r.x ∧ 0 ≤ r.y ∧
      r.x + r.width ≤ input.cols ∧ r.y + r.height ≤ input.rows := by
  obtain ⟨r, h1, h2, h3, _, h5, h6, h7, h8, h9, h10, _⟩ :=
    cropImage_rect input screen hc hc2 hr hr2 hw hh
  obtain ⟨out, o1, o2, o3, _, _, _, _⟩ := roi_ok input r ⟨h5, h7, h9, h6, h8, h10⟩
  refine ⟨r, out, by rw [h1, o1], o1, by omega, by omega, by omega, by omega, h2, h3, ?_, ?_,
    h5, h6, h9, h10⟩
  · intro e; rw [h2, e, sub_self]; decide
  · intro e; rw [h3, e, sub_self]; decide

/-- Instance of C4: a 3840 by 2160 photo cropped for a 1080 by 1920 screen. -/
theorem cropImage_shrinks_and_centres_witness :
    ∃ (r : Rect) (out : Mat),
      cropImage (gradientImage 3840 2160) ⟨1920, 0, 1080, 1920⟩ = .ok out ∧
      (gradientImage 3840 2160).roi r = .ok out ∧
      out.cols ≤ (gradientImage 3840 2160).cols ∧ out.rows ≤ (gradientImage 3840 2160).rows ∧
      r.width ≤ (gradientImage 3840 2160).cols ∧ r.height ≤ (gradientImage 3840 2160).rows ∧
      r.x = Int.fdiv ((gradientImage 3840 2160).cols - r.width) 2 ∧
      r.y = Int.fdiv ((gradientImage 3840 2160).rows - r.height) 2 ∧
      (r.width = (gradientImage 3840 2160).cols → r.x = 0) ∧
      (r.height = (gradientImage 3840 2160).rows → r.y = 0) ∧
      0 ≤ r.x ∧ 0 ≤ r.y ∧
      r.x + r.width ≤ (gradientImage 3840 2160).cols ∧
      r.y + r.height ≤ (gradientImage 3840 2160).rows :=
  cropImage_shrinks_and_centres (gradientImage 3840 2160) ⟨1920, 0, 1080, 1920⟩
    (by decide) (by decide) (by decide) (by decide) (by decide) (by decide)

/-- C9 (amended): for an image and a screen with positive dimensions, the sub-image returned
by `cropImage` has the screen's aspect ratio up to the truncation of the cropped extent to
whole pixels: `|result.width * screen.height - result.height * screen.width|` is below
`2 * max(screen.width, screen.height)`. -/
theorem cropImage_aspect_up_to_truncation (input : Mat) (screen : Screen)
    (hc : 0 < input.cols) (hc2 : input.cols < 2 ^ 31)
    (hr : 0 < input.rows) (hr2 : input.rows < 2 ^ 31)
    (hw : 0 < screen.width) (hh : 0 < screen.height) :
    ∃ out : Mat, cropImage input screen = .ok out ∧
      |out.cols * screen.height - out.rows * screen.width|
        < 2 * max screen.width screen.height := by
  obtain ⟨r, h1, _, _, _, h5, h6, h7, h8, h9, h10, hD⟩ :=
    cropImage_rect input screen hc hc2 hr hr2 hw hh
  obtain ⟨out, o1, _, _, _, _, o6, o7⟩ := roi_ok input r ⟨h5, h7, h9, h6, h8, h10⟩
  have m1 := le_max_left screen.width screen.height
  have m2 := le_max_right screen.width screen.height
  refine ⟨out, by rw [h1, o1], ?_⟩
  by_cases hz : r.width = 0 ∨ r.height = 0
  · rw [o7 hz]
    simp only [Mat.released, zero_mul, sub_self, abs_zero]
    omega
  · have hwp : 0 < r.width := by omega
    have hhp : 0 < r.height := by omega
    rw [o6 hwp hhp]
    simp only
    rcases hD with ⟨a, b, c⟩ | ⟨a, b, c⟩ | ⟨a, b, c⟩
    · rw [c, abs_lt]
      constructor <;> linarith
    · rw [c, abs_lt]
      constructor <;> linarith
    · have := same_ratio_close input screen hc hc2 hr hr2 hw hh c
      rw [a, b]
      linarith

/-- Instance of C9 (amended): a 100 by 100 photo cropped for a 1920 by 1080 screen. -/
theorem cropImage_aspect_up_to_truncation_witness :
    ∃ out : Mat, cropImage (gradientImage 100 100) ⟨0, 0, 1920, 1080⟩ = .ok out ∧
      |out.cols * (⟨0, 0, 1920, 1080⟩ : Screen).height
          - out.rows * (⟨0, 0, 1920, 1080⟩ : Screen).width|
        < 2 * max (⟨0, 0, 1920, 1080⟩ : Screen).width (⟨0, 0, 1920, 1080⟩ : Screen).height :=
  cropImage_aspect_up_to_truncation (gradientImage 100 100) ⟨0, 0, 1920, 1080⟩
    (by decide) (by decide) (by decide) (by decide) (by decide) (by decide)

/-- C9 (counterexample): a 100 by 100 image cropped for a 1920 by 1080 screen comes out
100 by 56, and `100 * 1080 = 108000` differs from `56 * 1920 = 107520`. -/
theorem cropImage_aspect_not_exact :
    ∃ out : Mat, cropImage (gradientImage 100 100) ⟨0, 0, 1920, 1080⟩ = .ok out ∧
      out.cols = 100 ∧ out.rows = 56 ∧ out.cols * 1080 ≠ out.rows * 1920 := by
  have hne : Dbl.eq (expectedRatioOf ⟨0, 0, 1920, 1080⟩) (imageRatioOf (gradientImage 100 100))
      = false := by decide
  have hlt : Dbl.lt (expectedRatioOf ⟨0, 0, 1920, 1080⟩) (imageRatioOf (gradientImage 100 100))
      = false := by decide
  have hch : correctedHeightOf (gradientImage 100 100) ⟨0, 0, 1920, 1080⟩ = 56 := by decide
  rw [cropImage_tall _ _ hne hlt, hch]
  refine ⟨⟨(gradientImage 100 100).buf, 0, 22, 100, 56⟩, ?_, rfl, rfl, by decide⟩
  rfl

/-- C3 (amended): for an image and a screen with positive dimensions whose double-precision
ratios differ, `cropImage` returns the following sub-rectangle of the source.  If the screen
ratio is the smaller one (then `screen.width / screen.height < image.width / image.height`
exactly), the band of width `cropWidth` and full original height at horizontal offset
`floor((image.width - cropWidth) / 2)` and vertical offset `0`, where `cropWidth` is the
double product `image.height * (screen.width / screen.height)` truncated (its floor), not
rounded to nearest; otherwise the band of height `cropHeight` and full original width at
vertical offset `floor((image.height - cropHeight) / 2)` and horizontal offset `0`, where
`cropHeight` is the double quotient `image.width / (screen.width / screen.height)` truncated.
The band lies inside the image, so the crop succeeds. -/
theorem cropImage_truncated_band (input : Mat) (screen : Screen)
    (hc : 0 < input.cols) (hc2 : input.cols < 2 ^ 31)
    (hr : 0 < input.rows) (hr2 : input.rows < 2 ^ 31)
    (hw : 0 < screen.width) (hh : 0 < screen.height)
    (hne : Dbl.eq (expectedRatioOf screen) (imageRatioOf input) = false) :
    (Dbl.lt (expectedRatioOf screen) (imageRatioOf input) = true →
      screen.width * input.rows < input.cols * screen.height ∧
      ∃ (cropWidth : Int) (out : Mat),
        cropWidth = ⌊(Dbl.mul (Dbl.ofInt input.rows) (expectedRatioOf screen)).toRat⌋ ∧
        0 ≤ cropWidth ∧ cropWidth ≤ input.cols ∧
        cropImage input screen = .ok out ∧
        input.roi ⟨Int.fdiv (input.cols - cropWidth) 2, 0, cropWidth, input.rows⟩ = .ok out ∧
        (0 < cropWidth → out = ⟨input.buf, input.offX + Int.fdiv (input.cols - cropWidth) 2,
          input.offY + 0, cropWidth, input.rows⟩)) ∧
    (Dbl.lt (expectedRatioOf screen) (imageRatioOf input) = false →
      input.cols * screen.height < screen.width * input.rows ∧
      ∃ (cropHeight : Int) (out : Mat),
        cropHeight = ⌊(Dbl.div (Dbl.ofInt input.cols) (expectedRatioOf screen)).toRat⌋ ∧
        0 ≤ cropHeight ∧ cropHeight ≤ input.rows ∧
        cropImage input screen = .ok out ∧
        input.roi ⟨0, Int.fdiv (input.rows - cropHeight) 2, input.cols, cropHeight⟩ = .ok out ∧
        (0 < cropHeight → out = ⟨input.buf, input.offX + 0,
          input.offY + Int.fdiv (input.rows - cropHeight) 2, input.cols, cropHeight⟩)) := by
  constructor
  · intro hlt
    obtain ⟨a, b, _, _⟩ := correctedWidth_spec input screen hc hc2 hr hw hh hlt
    refine ⟨ratio_lt_exact _ _ _ _ hw hh hc hr hlt, ?_⟩
    have hx : 0 ≤ Int.fdiv (input.cols - correctedWidthOf input screen) 2 ∧
        Int.fdiv (input.cols - correctedWidthOf input screen) 2 + correctedWidthOf input screen
          ≤ input.cols := by
      rw [Int.fdiv_eq_ediv _ (by norm_num)]; omega
    obtain ⟨out, o1, _, _, _, _, o6, _⟩ := roi_ok input
      ⟨Int.fdiv (input.cols - correctedWidthOf input screen) 2, 0,
        correctedWidthOf input screen, input.rows⟩
      ⟨hx.1, a, hx.2, le_refl _, le_of_lt hr, by simp⟩
    refine ⟨correctedWidthOf input screen, out, Dbl.toInt_eq_floor _, a, b, ?_, o1, ?_⟩
    · rw [cropImage_wide input screen hne hlt, o1]
    · intro hpos; exact o6 hpos hr
  · intro hlt
    obtain ⟨a, b, _, _⟩ := correctedHeight_spec input screen hc hr hr2 hw hh hlt hne
    have hgt : Dbl.lt (imageRatioOf input) (expectedRatioOf screen) = true := by
      rw [Dbl.lt_iff]
      have n1 : ¬ (expectedRatioOf screen).toRat < (imageRatioOf input).toRat := by
        rw [← Dbl.lt_iff, hlt]; simp
      have n2 : ¬ (expectedRatioOf screen).toRat = (imageRatioOf input).toRat := by
        rw [← Dbl.eq_iff, hne]; simp
      rcases lt_trichotomy (expectedRatioOf screen).toRat (imageRatioOf input).toRat with h | h | h
      · exact absurd h n1
      · exact absurd h n2
      · exact h
    refine ⟨ratio_lt_exact _ _ _ _ hc hr hw hh hgt, ?_⟩
    have hy : 0 ≤ Int.fdiv (input.rows - correctedHeightOf input screen) 2 ∧
        Int.fdiv (input.rows - correctedHeightOf input screen) 2 + correctedHeightOf input screen
          ≤ input.rows := by
      rw [Int.fdiv_eq_ediv _ (by norm_num)]; omega
    obtain ⟨out, o1, _, _, _, _, o6, _⟩ := roi_ok input
      ⟨0, Int.fdiv (input.rows - correctedHeightOf input screen) 2,
        input.cols, correctedHeightOf input screen⟩
      ⟨le_refl _, le_of_lt hc, by simp, hy.1, a, hy.2⟩
    refine ⟨correctedHeightOf input screen, out, Dbl.toInt_eq_floor _, a, b, ?_, o1, ?_⟩
    · rw [cropImage_tall input screen hne hlt, o1]
    · intro hpos; exact o6 hc hpos

/-- C3 (counterexample): a 4000 by 3000 image on a 1080 by 1920 screen, whose ratio is the
smaller one.  The exactly proportional width is `3000 * 1080 / 1920 = 1687.5`, which rounds
to 1688, but the band returned is 1687 pixels wide: the fraction is cut off. -/
theorem cropImage_truncates_not_rounds :
    (1080 : ℚ) / 1920 < 4000 / 3000 ∧
    roundNearest ((3000 : ℚ) * 1080 / 1920) = 1688 ∧
    ∃ out : Mat, cropImage (gradientImage 4000 3000) ⟨0, 0, 1080, 1920⟩ = .ok out ∧
      out.cols = 1687 ∧ out.rows = 3000 ∧
      out.cols ≠ roundNearest ((3000 : ℚ) * 1080 / 1920) := by
  have hne : Dbl.eq (expectedRatioOf ⟨0, 0, 1080, 1920⟩) (imageRatioOf (gradientImage 4000 3000))
      = false := by decide
  have hlt : Dbl.lt (expectedRatioOf ⟨0, 0, 1080, 1920⟩) (imageRatioOf (gradientImage 4000 3000))
      = true := by decide
  have hcw : correctedWidthOf (gradientImage 4000 3000) ⟨0, 0, 1080, 1920⟩ = 1687 := by decide
  have hround : roundNearest ((3000 : ℚ) * 1080 / 1920) = 1688 := by
    unfold roundNearest
    rw [show ((3000 : ℚ) * 1080 / 1920 + 1 / 2) = ((1688 : Int) : ℚ) by norm_num,
      Int.floor_intCast]
  refine ⟨by norm_num, hround, ?_⟩
  rw [cropImage_wide _ _ hne hlt, hcw, hround]
  refine ⟨⟨(gradientImage 4000 3000).buf, 1156, 0, 1687, 3000⟩, ?_, rfl, rfl, by decide⟩
  rfl

/-- C1 (failing input): a 3000 by 1921 image for a 1080 by 1920 screen.  `cropImage` cuts a
band 1080 pixels wide and 1921 high; its width equals the screen's, so `scaleImage` returns
it without resizing, and the result is one row higher than the screen. -/
theorem scaleImage_skips_height_mismatch (interp : Mat → Int → Int → Int → Int → Pixel) :
    ∃ cropped out : Mat,
      cropImage (gradientImage 3000 1921) ⟨0, 0, 1080, 1920⟩ = .ok cropped ∧
      scaleImage interp cropped ⟨0, 0, 1080, 1920⟩ = .ok out ∧
      out.cols = 1080 ∧ out.rows = 1921 := by
  have hne : Dbl.eq (expectedRatioOf ⟨0, 0, 1080, 1920⟩) (imageRatioOf (gradientImage 3000 1921))
      = false := by decide
  have hlt : Dbl.lt (expectedRatioOf ⟨0, 0, 1080, 1920⟩) (imageRatioOf (gradientImage 3000 1921))
      = true := by decide
  have hcw : correctedWidthOf (gradientImage 3000 1921) ⟨0, 0, 1080, 1920⟩ = 1080 := by decide
  rw [cropImage_wide _ _ hne hlt, hcw]
  refine ⟨⟨(gradientImage 3000 1921).buf, 960, 0, 1080, 1921⟩,
    ⟨(gradientImage 3000 1921).buf, 960, 0, 1080, 1921⟩, ?_, ?_, rfl, rfl⟩
  · rfl
  · rfl

/-- A crop whose truncated extent is 0 is empty, and `scaleImage` then fails in `resize`: a
1 by 100 image on a 100 by 1 screen. -/
theorem scaleImage_fails_on_empty_crop (interp : Mat → Int → Int → Int → Int → Pixel) :
    cropImage (gradientImage 1 100) ⟨0, 0, 100, 1⟩ = .ok Mat.released ∧
    scaleImage interp Mat.released ⟨0, 0, 100, 1⟩ = .error .cvAssert := by
  have hne : Dbl.eq (expectedRatioOf ⟨0, 0, 100, 1⟩) (imageRatioOf (gradientImage 1 100))
      = false := by decide
  have hlt : Dbl.lt (expectedRatioOf ⟨0, 0, 100, 1⟩) (imageRatioOf (gradientImage 1 100))
      = false := by decide
  have hch : correctedHeightOf (gradientImage 1 100) ⟨0, 0, 100, 1⟩ = 0 := by decide
  constructor
  · rw [cropImage_tall _ _ hne hlt, hch]
    rfl
  · rfl

/-- Instance of C3 (amended): a 4000 by 3000 photo cropped for a 1080 by 1920 screen. -/
theorem cropImage_truncated_band_witness :
    (Dbl.lt (expectedRatioOf portraitScreen) (imageRatioOf landscapePhoto) = true →
      portraitScreen.width * landscapePhoto.rows < landscapePhoto.cols * portraitScreen.height ∧
      ∃ (cropWidth : Int) (out : Mat),
        cropWidth
          = ⌊(Dbl.mul (Dbl.ofInt landscapePhoto.rows) (expectedRatioOf portraitScreen)).toRat⌋ ∧
        0 ≤ cropWidth ∧ cropWidth ≤ landscapePhoto.cols ∧
        cropImage landscapePhoto portraitScreen = .ok out ∧
        landscapePhoto.roi
          ⟨Int.fdiv (landscapePhoto.cols - cropWidth) 2, 0, cropWidth, landscapePhoto.rows⟩
            = .ok out ∧
        (0 < cropWidth → out = ⟨landscapePhoto.buf,
          landscapePhoto.offX + Int.fdiv (landscapePhoto.cols - cropWidth) 2,
          landscapePhoto.offY + 0, cropWidth, landscapePhoto.rows⟩)) ∧
    (Dbl.lt (expectedRatioOf portraitScreen) (imageRatioOf landscapePhoto) = false →
      landscapePhoto.cols * portraitScreen.height < portraitScreen.width * landscapePhoto.rows ∧
      ∃ (cropHeight : Int) (out : Mat),
        cropHeight
          = ⌊(Dbl.div (Dbl.ofInt landscapePhoto.cols) (expectedRatioOf portraitScreen)).toRat⌋ ∧
        0 ≤ cropHeight ∧ cropHeight ≤ landscapePhoto.rows ∧
        cropImage landscapePhoto portraitScreen = .ok out ∧
        landscapePhoto.roi
          ⟨0, Int.fdiv (landscapePhoto.rows - cropHeight) 2, landscapePhoto.cols, cropHeight⟩
            = .ok out ∧
        (0 < cropHeight → out = ⟨landscapePhoto.buf, landscapePhoto.offX + 0,
          landscapePhoto.offY + Int.fdiv (landscapePhoto.rows - cropHeight) 2,
          landscapePhoto.cols, cropHeight⟩)) :=
  cropImage_truncated_band landscapePhoto portraitScreen
    (by decide) (by decide) (by decide) (by decide) (by decide) (by decide) (by decide)

/-! ## The paste loop -/

theorem copyToRoi_ok_iff (image canvas : Mat) (r : Rect) (c : Mat) :
    copyToRoi image canvas r = .ok c ↔
      (0 ≤ r.x ∧ r.x + r.width ≤ canvas.cols ∧ 0 ≤ r.y ∧ r.y + r.height ≤ canvas.rows ∧
        0 < r.width ∧ 0 < r.height ∧ image.cols = r.width ∧ image.rows = r.height) ∧
      c = ⟨fun bx by_ =>
            if canvas.offX + r.x ≤ bx ∧ bx < canvas.offX + r.x + r.width ∧
                canvas.offY + r.y ≤ by_ ∧ by_ < canvas.offY + r.y + r.height then
              image.pixel (bx - (canvas.offX + r.x)) (by_ - (canvas.offY + r.y))
            else canvas.buf bx by_,
          canvas.offX, canvas.offY, canvas.cols, canvas.rows⟩ := by
  unfold copyToRoi Mat.roi
  by_cases h1 : 0 ≤ r.x ∧ 0 ≤ r.width ∧ r.x + r.width ≤ canvas.cols ∧
      0 ≤ r.y ∧ 0 ≤ r.height ∧ r.y + r.height ≤ canvas.rows
  · rw [if_pos h1]
    by_cases h2 : r.height ≤ 0 ∨ r.width ≤ 0
    · rw [if_pos h2]
      by_cases h3 : image.cols ≤ 0 ∨ image.rows ≤ 0
      · simp only [h3, if_true]
        constructor
        · intro h; cases h
        · intro h; exfalso; omega
      · simp only [h3, if_false, Mat.released]
        have h4 : ¬ (image.cols = 0 ∧ image.rows = 0) := by omega
        simp only [h4, if_false]
        constructor
        · intro h; cases h
        · intro h; exfalso; omega
    · rw [if_neg h2]
      by_cases h3 : image.cols ≤ 0 ∨ image.rows ≤ 0
      · simp only [h3, if_true]
        constructor
        · intro h; cases h
        · intro h; exfalso; omega
      · simp only [h3, if_false]
        by_cases h4 : image.cols = r.width ∧ image.rows = r.height
        · rw [if_pos h4]
          constructor
          · intro h
            injection h with h
            exact ⟨⟨by omega, by omega, by omega, by omega, by omega, by omega, h4.1, h4.2⟩,
              h.symm⟩
          · intro h
            rw [h.2]
        · rw [if_neg h4]
          constructor
          · intro h; cases h
          · intro h; exfalso; omega
  · rw [if_neg h1]
    constructor
    · intro h; cases h
    · intro h; exfalso; omega

theorem pasteLoop_cons (interp : Mat → Int → Int → Int → Int → Pixel) (screen : Screen)
    (image : Mat) (rest : List (Screen × Mat)) (canvas : Mat) :
    pasteLoop interp ((screen, image) :: rest) canvas =
      match cropAndScale interp (screen, image) with
      | .error e => .error e
      | .ok scaled =>
        match copyToRoi scaled canvas ⟨screen.x, screen.y, screen.width, screen.height⟩ with
        | .error e => .error e
        | .ok canvas1 => pasteLoop interp rest canvas1 := by
  rw [pasteLoop]
  unfold cropAndScale
  cases cropImage image screen <;> rfl

/-- A successful run of the paste loop: every pass succeeded, the canvas keeps its header, and
every pixel is the result of painting the pairs in order. -/
theorem pasteLoop_ok_spec (interp : Mat → Int → Int → Int → Int → Pixel) :
    ∀ (pairs : List (Screen × Mat)) (canvas c : Mat),
      pasteLoop interp pairs canvas = .ok c →
      c.cols = canvas.cols ∧ c.rows = canvas.rows ∧ c.offX = canvas.offX ∧
      c.offY = canvas.offY ∧
      (∀ p ∈ pairs, PasteOk interp canvas.cols canvas.rows p) ∧
      ∀ px py, c.pixel px py = paintOver interp pairs (canvas.pixel px py) px py := by
  intro pairs
  induction pairs with
  | nil =>
    intro canvas c h
    rw [pasteLoop] at h
    injection h with h
    subst h
    refine ⟨rfl, rfl, rfl, rfl, ?_, ?_⟩
    · intro p hp; cases hp
    · intro px py; rfl
  | cons p rest ih =>
    intro canvas c h
    obtain ⟨screen, image⟩ := p
    rw [pasteLoop_cons] at h
    cases hcs : cropAndScale interp (screen, image) with
    | error e => rw [hcs] at h; cases h
    | ok scaled =>
      rw [hcs] at h
      simp only at h
      cases hcp : copyToRoi scaled canvas ⟨screen.x, screen.y, screen.width, screen.height⟩ with
      | error e => rw [hcp] at h; cases h
      | ok canvas1 =>
        rw [hcp] at h
        simp only at h
        obtain ⟨hdims, hc1⟩ := (copyToRoi_ok_iff _ _ _ _).mp hcp
        obtain ⟨i1, i2, i3, i4, i5, i6⟩ := ih canvas1 c h
        have d1 : canvas1.cols = canvas.cols := by rw [hc1]
        have d2 : canvas1.rows = canvas.rows := by rw [hc1]
        have d3 : canvas1.offX = canvas.offX := by rw [hc1]
        have d4 : canvas1.offY = canvas.offY := by rw [hc1]
        refine ⟨by rw [i1, d1], by rw [i2, d2], by rw [i3, d3], by rw [i4, d4], ?_, ?_⟩
        · intro p hp
          rcases List.mem_cons.mp hp with hp | hp
          · subst hp
            exact ⟨scaled, hcs, hdims⟩
          · have := i5 p hp
            rw [d1, d2] at this
            exact this
        · intro px py
          rw [i6 px py, paintOver, hcs]
          congr 1
          simp only
          rw [hc1]
          unfold Mat.pixel Screen.covers
          simp only
          by_cases hcov : screen.x ≤ px ∧ px < screen.x + screen.width ∧
              screen.y ≤ py ∧ py < screen.y + screen.height
          · have hcov2 : canvas.offX + screen.x ≤ canvas.offX + px ∧
                canvas.offX + px < canvas.offX + screen.x + screen.width ∧
                canvas.offY + screen.y ≤ canvas.offY + py ∧
                canvas.offY + py < canvas.offY + screen.y + screen.height := by omega
            rw [if_pos hcov, if_pos hcov2]
            congr 1 <;> ring
          · have hcov2 : ¬ (canvas.offX + screen.x ≤ canvas.offX + px ∧
                canvas.offX + px < canvas.offX + screen.x + screen.width ∧
                canvas.offY + screen.y ≤ canvas.offY + py ∧
                canvas.offY + py < canvas.offY + screen.y + screen.height) := by omega
            rw [if_neg hcov, if_neg hcov2]

/-- The paste loop succeeds as soon as every single pass can. -/
theorem pasteLoop_ok_of (interp : Mat → Int → Int → Int → Int → Pixel) :
    ∀ (pairs : List (Screen × Mat)) (canvas : Mat),
      (∀ p ∈ pairs, PasteOk interp canvas.cols canvas.rows p) →
      ∃ c, pasteLoop interp pairs canvas = .ok c := by
  intro pairs
  induction pairs with
  | nil => intro canvas _; exact ⟨canvas, by rw [pasteLoop]⟩
  | cons p rest ih =>
    intro canvas h
    obtain ⟨screen, image⟩ := p
    obtain ⟨img, hcs, hd⟩ := h (screen, image) (List.mem_cons_self _ _)
    rw [pasteLoop_cons, hcs]
    simp only
    have hcp := (copyToRoi_ok_iff img canvas ⟨screen.x, screen.y, screen.width, screen.height⟩
      _).mpr ⟨hd, rfl⟩
    rw [hcp]
    simp only
    apply ih
    intro q hq
    exact h q (List.mem_cons_of_mem _ hq)

theorem paintOver_of_not_covered (interp : Mat → Int → Int → Int → Int → Pixel) (px py : Int) :
    ∀ (pairs : List (Screen × Mat)) (base : Pixel),
      (∀ p ∈ pairs, ¬ p.1.covers px py) → paintOver interp pairs base px py = base := by
  intro pairs
  induction pairs with
  | nil => intro base _; rfl
  | cons p rest ih =>
    intro base h
    rw [paintOver, if_neg (h p (List.mem_cons_self _ _))]
    exact ih base (fun q hq => h q (List.mem_cons_of_mem _ hq))

theorem paintOver_append (interp : Mat → Int → Int → Int → Int → Pixel) (px py : Int) :
    ∀ (l1 l2 : List (Screen × Mat)) (base : Pixel),
      paintOver interp (l1 ++ l2) base px py
        = paintOver interp l2 (paintOver interp l1 base px py) px py := by
  intro l1
  induction l1 with
  | nil => intro l2 base; rfl
  | cons p rest ih =>
    intro l2 base
    rw [List.cons_append, paintOver, paintOver, ih]

/-- The last pair covering a pixel decides its colour. -/
theorem paintOver_last_cover (interp : Mat → Int → Int → Int → Int → Pixel) (px py : Int)
    (pre post : List (Screen × Mat)) (p : Screen × Mat) (img : Mat) (base : Pixel)
    (hcov : p.1.covers px py) (himg : cropAndScale interp p = .ok img)
    (hpost : ∀ q ∈ post, ¬ q.1.covers px py) :
    paintOver interp (pre ++ p :: post) base px py = img.pixel (px - p.1.x) (py - p.1.y) := by
  rw [paintOver_append, paintOver, if_pos hcov, himg]
  exact paintOver_of_not_covered interp px py post _ hpost

/-- Among pairwise disjoint screens, the one covering a pixel decides its colour. -/
theorem paintOver_of_covered_disjoint (interp : Mat → Int → Int → Int → Int → Pixel)
    (px py : Int) (pairs : List (Screen × Mat))
    (hdis : pairs.Pairwise (fun a b => Screen.disjoint a.1 b.1))
    (p : Screen × Mat) (hp : p ∈ pairs) (img : Mat) (base : Pixel)
    (hcov : p.1.covers px py) (himg : cropAndScale interp p = .ok img) :
    paintOver interp pairs base px py = img.pixel (px - p.1.x) (py - p.1.y) := by
  obtain ⟨pre, post, rfl⟩ := List.append_of_mem hp
  apply paintOver_last_cover interp px py pre post p img base hcov himg
  intro q hq hqc
  rw [List.pairwise_append] at hdis
  have h2 := hdis.2.1
  rw [List.pairwise_cons] at h2
  exact h2.1 q hq px py ⟨hcov, hqc⟩

/-- An `int` sum that fits into 32 bits is the exact sum. -/
theorem addInt_eq (a b : Int) (h1 : -2 ^ 31 ≤ a + b) (h2 : a + b < 2 ^ 31) :
    addInt a b = a + b := by
  unfold addInt
  norm_num at h1 h2 ⊢
  omega

/-- Sums at the edge of the range: the largest representable sum is exact, the next one wraps
to the most negative `int`. -/
theorem addInt_reference_values :
    addInt 1920 1080 = 3000 ∧ addInt 2147483646 1 = 2147483647 ∧
    addInt 2147483647 1 = -2147483648 := by
  decide

/-- The sum of two non-negative `int` values that stays below `2 ^ 31` is exact. -/
theorem screen_sums_exact (a b : Int) (ha : 0 ≤ a) (hb : 0 ≤ b) (h : a + b < 2 ^ 31) :
    addInt a b = a + b :=
  addInt_eq a b (by have : (0 : Int) ≤ 2 ^ 31 := by norm_num
                    omega) h

theorem foldl_max_spec (f : Screen → Int) :
    ∀ (screens : List Screen) (m : Int),
      m ≤ screens.foldl (fun a s => max a (f s)) m ∧
      (∀ s ∈ screens, f s ≤ screens.foldl (fun a s => max a (f s)) m) ∧
      (screens.foldl (fun a s => max a (f s)) m = m ∨
        ∃ s ∈ screens, screens.foldl (fun a s => max a (f s)) m = f s) := by
  intro screens
  induction screens with
  | nil =>
    intro m
    refine ⟨le_refl _, ?_, Or.inl rfl⟩
    intro s hs; cases hs
  | cons t rest ih =>
    intro m
    rw [List.foldl_cons]
    obtain ⟨a, b, c⟩ := ih (max m (f t))
    refine ⟨le_trans (le_max_left _ _) a, ?_, ?_⟩
    · intro s hs
      rcases List.mem_cons.mp hs with hs | hs
      · subst hs; exact le_trans (le_max_right _ _) a
      · exact b s hs
    · rcases c with c | ⟨s, hs, c⟩
      · rcases le_total m (f t) with h | h
        · right
          exact ⟨t, List.mem_cons_self _ _, by rw [c, max_eq_right h]⟩
        · left
          rw [c, max_eq_left h]
      · right
        exact ⟨s, List.mem_cons_of_mem _ hs, c⟩

theorem foldl_max_perm (f : Screen → Int) (l1 l2 : List Screen) (h : l1.Perm l2) (m : Int) :
    l1.foldl (fun a s => max a (f s)) m = l2.foldl (fun a s => max a (f s)) m := by
  apply List.Perm.foldl_eq' h
  intro x _ y _ z
  simp only [max_assoc, max_comm (f x) (f y)]

/-- The first loop of `buildBackdrop` on a non-empty directory listing: it ends normally, with
the canvas extent of the screens and one picked entry per screen. -/
theorem pickLoop_ok (images : List String) (rand : Nat → Nat) (himg : images ≠ []) :
    ∀ (screens : List Screen) (st : PickState),
      ∃ st1, pickLoop images rand screens st = .ok st1 ∧
        st1.maxHeight = screens.foldl (fun a s => max a (addInt s.height s.y)) st.maxHeight ∧
        st1.maxWidth = screens.foldl (fun a s => max a (addInt s.width s.x)) st.maxWidth ∧
        st1.picked.length = st.picked.length + screens.length := by
  have hlen : 0 < images.length := List.length_pos.mpr himg
  intro screens
  induction screens with
  | nil =>
    intro st
    exact ⟨st, by rw [pickLoop], rfl, rfl, by simp⟩
  | cons s rest ih =>
    intro st
    rw [pickLoop, if_neg (by omega)]
    have hidx : rand st.i % images.length < images.length := Nat.mod_lt _ hlen
    obtain ⟨path, hpath⟩ : ∃ path, images.get? (rand st.i % images.length) = some path :=
      ⟨_, List.get?_eq_get hidx⟩
    rw [hpath]
    simp only
    obtain ⟨st1, h1, h2, h3, h4⟩ := ih
      ⟨max st.maxHeight (addInt s.height s.y), max st.maxWidth (addInt s.width s.x),
        st.picked ++ [path], st.i + 1⟩
    refine ⟨st1, h1, ?_, ?_, ?_⟩
    · rw [h2, List.foldl_cons]
    · rw [h3, List.foldl_cons]
    · rw [h4]; simp only [List.length_append, List.length_cons, List.length_nil]; omega

/-- With an empty directory listing the first pass of the first loop divides by zero. -/
theorem pickLoop_empty (rand : Nat → Nat) (s : Screen) (rest : List Screen) (st : PickState) :
    pickLoop [] rand (s :: rest) st = .error .divideByZero := by
  rw [pickLoop]
  simp

/-- On a non-empty directory listing `buildBackdrop` is `composeBackdrop` on the picked images. -/
theorem buildBackdrop_eq_compose (interp : Mat → Int → Int → Int → Int → Pixel)
    (imread : String → Mat) (rand : Nat → Nat) (screens : List Screen) (images : List String)
    (himg : images ≠ []) :
    ∃ st, pickLoop images rand screens ⟨0, 0, [], 0⟩ = .ok st ∧
      st.maxHeight = canvasHeight screens ∧ st.maxWidth = canvasWidth screens ∧
      st.picked.length = screens.length ∧
      (screens.zip (st.picked.map imread)).map Prod.fst = screens ∧
      buildBackdrop interp imread rand screens images
        = composeBackdrop interp (screens.zip (st.picked.map imread)) := by
  obtain ⟨st, h1, h2, h3, h4⟩ := pickLoop_ok images rand himg screens ⟨0, 0, [], 0⟩
  have hl : st.picked.length = screens.length := by rw [h4]; simp
  have hz : (screens.zip (st.picked.map imread)).map Prod.fst = screens := by
    apply List.map_fst_zip
    rw [List.length_map, hl]
  refine ⟨st, h1, h2, h3, hl, hz, ?_⟩
  unfold buildBackdrop composeBackdrop
  rw [h1, hz]
  simp only
  rw [h2, h3]
  rfl

/-- C2: for a non-empty sequence of screens with `x ≥ 0`, `y ≥ 0`, `width > 0`, `height > 0`
whose sums `x + width` and `y + height` are `int` values (below `2 ^ 31`, so that the
additions of the code do not overflow), and a directory that lists at least one entry (so
that a canvas is allocated at all), the canvas allocated by `buildBackdrop` has width equal to
the maximum of `x + width` over the screens and height equal to the maximum of `y + height`
over the screens; a canvas returned by `buildBackdrop` has the same size. -/
theorem buildBackdrop_canvas_extent (interp : Mat → Int → Int → Int → Int → Pixel)
    (imread : String → Mat) (rand : Nat → Nat) (screens : List Screen) (images : List String)
    (hs : screens ≠ [])
    (hpos : ∀ s ∈ screens, 0 ≤ s.x ∧ 0 ≤ s.y ∧ 0 < s.width ∧ 0 < s.height)
    (hrange : ∀ s ∈ screens, s.x + s.width < 2 ^ 31 ∧ s.y + s.height < 2 ^ 31)
    (himg : images ≠ []) :
    ∃ (st : PickState) (canvas : Mat),
      pickLoop images rand screens ⟨0, 0, [], 0⟩ = .ok st ∧
      canvas = blankCanvas st.maxHeight st.maxWidth ∧
      buildBackdrop interp imread rand screens images
        = pasteLoop interp (screens.zip (st.picked.map imread)) canvas ∧
      (∀ s ∈ screens, s.x + s.width ≤ canvas.cols) ∧
      (∃ s ∈ screens, s.x + s.width = canvas.cols) ∧
      (∀ s ∈ screens, s.y + s.height ≤ canvas.rows) ∧
      (∃ s ∈ screens, s.y + s.height = canvas.rows) ∧
      ∀ result, buildBackdrop interp imread rand screens images = .ok result →
        result.cols = canvas.cols ∧ result.rows = canvas.rows := by
  obtain ⟨st, h1, h2, h3, _, hz, h6⟩ :=
    buildBackdrop_eq_compose interp imread rand screens images himg
  obtain ⟨s0, hs0⟩ := List.exists_mem_of_ne_nil screens hs
  obtain ⟨_, wb, wc⟩ := foldl_max_spec (fun s => addInt s.width s.x) screens 0
  obtain ⟨_, hb, hc⟩ := foldl_max_spec (fun s => addInt s.height s.y) screens 0
  have hwsum : ∀ s ∈ screens, addInt s.width s.x = s.x + s.width := by
    intro s hs
    obtain ⟨p1, _, p3, _⟩ := hpos s hs
    rw [screen_sums_exact s.width s.x (le_of_lt p3) p1 (by rw [add_comm]; exact (hrange s hs).1)]
    ring
  have hhsum : ∀ s ∈ screens, addInt s.height s.y = s.y + s.height := by
    intro s hs
    obtain ⟨_, p2, _, p4⟩ := hpos s hs
    rw [screen_sums_exact s.height s.y (le_of_lt p4) p2 (by rw [add_comm]; exact (hrange s hs).2)]
    ring
  have hcomp : composeBackdrop interp (screens.zip (st.picked.map imread))
      = pasteLoop interp (screens.zip (st.picked.map imread))
          (blankCanvas st.maxHeight st.maxWidth) := by
    unfold composeBackdrop
    rw [hz, h2, h3]
  refine ⟨st, blankCanvas st.maxHeight st.maxWidth, h1, rfl, by rw [h6, hcomp], ?_, ?_, ?_, ?_, ?_⟩
  · intro s hs
    have := wb s hs
    show s.x + s.width ≤ st.maxWidth
    rw [h3]; unfold canvasWidth
    simp only at this
    rw [hwsum s hs] at this
    exact this
  · show ∃ s ∈ screens, s.x + s.width = st.maxWidth
    rw [h3]; unfold canvasWidth
    rcases wc with wc | ⟨s, hs, wc⟩
    · have a := wb s0 hs0
      have b := hpos s0 hs0
      simp only at a
      rw [hwsum s0 hs0, wc] at a
      omega
    · exact ⟨s, hs, by rw [wc, hwsum s hs]⟩
  · intro s hs
    have := hb s hs
    show s.y + s.height ≤ st.maxHeight
    rw [h2]; unfold canvasHeight
    simp only at this
    rw [hhsum s hs] at this
    exact this
  · show ∃ s ∈ screens, s.y + s.height = st.maxHeight
    rw [h2]; unfold canvasHeight
    rcases hc with hc | ⟨s, hs, hc⟩
    · have a := hb s0 hs0
      have b := hpos s0 hs0
      simp only at a
      rw [hhsum s0 hs0, hc] at a
      omega
    · exact ⟨s, hs, by rw [hc, hhsum s hs]⟩
  · intro result hres
    rw [h6, hcomp] at hres
    obtain ⟨a, b, _⟩ := pasteLoop_ok_spec interp _ _ _ hres
    exact ⟨a, b⟩

/-- Instance of C2: screens 1920 by 1080 at (0, 0) and 1080 by 1920 at (1920, 0) give a canvas
of 3000 by 1920. -/
theorem buildBackdrop_canvas_extent_witness :
    ∃ (st : PickState) (canvas : Mat),
      pickLoop ["mountains.jpg"] (fun _ => 7) [⟨0, 0, 1920, 1080⟩, ⟨1920, 0, 1080, 1920⟩]
        ⟨0, 0, [], 0⟩ = .ok st ∧
      canvas = blankCanvas st.maxHeight st.maxWidth ∧
      canvas.cols = 3000 ∧ canvas.rows = 1920 := by
  obtain ⟨st, canvas, h1, h2, _, h4, ⟨s, hs, h5⟩, h6, ⟨t, ht, h7⟩, _⟩ :=
    buildBackdrop_canvas_extent nearestNeighbour (fun _ => gradientImage 3840 2160) (fun _ => 7)
      [⟨0, 0, 1920, 1080⟩, ⟨1920, 0, 1080, 1920⟩] ["mountains.jpg"]
      (by simp) (by intro s hs; simp at hs; rcases hs with rfl | rfl <;> decide)
      (by intro s hs; simp at hs; rcases hs with rfl | rfl <;> decide) (by simp)
  refine ⟨st, canvas, h1, h2, ?_, ?_⟩
  · have a := h4 ⟨1920, 0, 1080, 1920⟩ (by simp)
    simp at hs
    rcases hs with rfl | rfl <;> simp only at h5 a <;> omega
  · have a := h6 ⟨1920, 0, 1080, 1920⟩ (by simp)
    simp at ht
    rcases ht with rfl | rfl <;> simp only at h7 a <;> omega

/-- C8: for screens with `x ≥ 0`, `y ≥ 0`, `width > 0`, `height > 0` whose sums `x + width`
and `y + height` are `int` values (below `2 ^ 31`, so that the additions of the code do not
overflow), and a directory that lists at least one entry (so that a canvas is allocated),
every paste rectangle `(screen.x, screen.y, screen.width, screen.height)` used by
`buildBackdrop` lies fully inside the canvas it allocated, so that taking the window
`canvas(rect)` passes its assertion. -/
theorem buildBackdrop_paste_rects_inside (interp : Mat → Int → Int → Int → Int → Pixel)
    (imread : String → Mat) (rand : Nat → Nat) (screens : List Screen) (images : List String)
    (hpos : ∀ s ∈ screens, 0 ≤ s.x ∧ 0 ≤ s.y ∧ 0 < s.width ∧ 0 < s.height)
    (hrange : ∀ s ∈ screens, s.x + s.width < 2 ^ 31 ∧ s.y + s.height < 2 ^ 31)
    (himg : images ≠ []) :
    ∃ (st : PickState) (canvas : Mat),
      pickLoop images rand screens ⟨0, 0, [], 0⟩ = .ok st ∧
      canvas = blankCanvas st.maxHeight st.maxWidth ∧
      buildBackdrop interp imread rand screens images
        = pasteLoop interp (screens.zip (st.picked.map imread)) canvas ∧
      ∀ s ∈ screens,
        0 ≤ s.x ∧ s.x + s.width ≤ canvas.cols ∧ 0 ≤ s.y ∧ s.y + s.height ≤ canvas.rows ∧
        ∃ view, canvas.roi ⟨s.x, s.y, s.width, s.height⟩ = .ok view ∧
          view.cols = s.width ∧ view.rows = s.height := by
  obtain ⟨st, h1, h2, h3, _, hz, h6⟩ :=
    buildBackdrop_eq_compose interp imread rand screens images himg
  obtain ⟨_, wb, _⟩ := foldl_max_spec (fun s => addInt s.width s.x) screens 0
  obtain ⟨_, hb, _⟩ := foldl_max_spec (fun s => addInt s.height s.y) screens 0
  have hcomp : composeBackdrop interp (screens.zip (st.picked.map imread))
      = pasteLoop interp (screens.zip (st.picked.map imread))
          (blankCanvas st.maxHeight st.maxWidth) := by
    unfold composeBackdrop
    rw [hz, h2, h3]
  refine ⟨st, blankCanvas st.maxHeight st.maxWidth, h1, rfl, by rw [h6, hcomp], ?_⟩
  intro s hs
  obtain ⟨p1, p2, p3, p4⟩ := hpos s hs
  obtain ⟨r1, r2⟩ := hrange s hs
  have a := wb s hs
  have b := hb s hs
  simp only at a b
  rw [screen_sums_exact s.width s.x (le_of_lt p3) p1 (by rw [add_comm]; exact r1)] at a
  rw [screen_sums_exact s.height s.y (le_of_lt p4) p2 (by rw [add_comm]; exact r2)] at b
  have ha : s.x + s.width ≤ (blankCanvas st.maxHeight st.maxWidth).cols := by
    show s.x + s.width ≤ st.maxWidth
    rw [h3]; unfold canvasWidth; omega
  have hb2 : s.y + s.height ≤ (blankCanvas st.maxHeight st.maxWidth).rows := by
    show s.y + s.height ≤ st.maxHeight
    rw [h2]; unfold canvasHeight; omega
  refine ⟨p1, ha, p2, hb2, ?_⟩
  obtain ⟨view, v1, _, _, _, _, v6, _⟩ := roi_ok (blankCanvas st.maxHeight st.maxWidth)
    ⟨s.x, s.y, s.width, s.height⟩ ⟨p1, le_of_lt p3, ha, p2, le_of_lt p4, hb2⟩
  refine ⟨view, v1, ?_, ?_⟩
  · rw [v6 p3 p4]
  · rw [v6 p3 p4]

/-- Instance of C8: a 2560 by 1440 screen and a 1280 by 1024 screen at (2560, 360). -/
theorem buildBackdrop_paste_rects_inside_witness :
    ∃ (st : PickState) (canvas : Mat),
      pickLoop ["a.png", "b.png"] (fun k => k) [⟨0, 0, 2560, 1440⟩, ⟨2560, 360, 1280, 1024⟩]
        ⟨0, 0, [], 0⟩ = .ok st ∧
      canvas = blankCanvas st.maxHeight st.maxWidth ∧
      buildBackdrop nearestNeighbour (fun _ => gradientImage 800 600) (fun k => k)
          [⟨0, 0, 2560, 1440⟩, ⟨2560, 360, 1280, 1024⟩] ["a.png", "b.png"]
        = pasteLoop nearestNeighbour
            (([⟨0, 0, 2560, 1440⟩, ⟨2560, 360, 1280, 1024⟩] : List Screen).zip
              (st.picked.map (fun _ => gradientImage 800 600))) canvas ∧
      ∀ s ∈ ([⟨0, 0, 2560, 1440⟩, ⟨2560, 360, 1280, 1024⟩] : List Screen),
        0 ≤ s.x ∧ s.x + s.width ≤ canvas.cols ∧ 0 ≤ s.y ∧ s.y + s.height ≤ canvas.rows ∧
        ∃ view, canvas.roi ⟨s.x, s.y, s.width, s.height⟩ = .ok view ∧
          view.cols = s.width ∧ view.rows = s.height :=
  buildBackdrop_paste_rects_inside nearestNeighbour (fun _ => gradientImage 800 600) (fun k => k)
    [⟨0, 0, 2560, 1440⟩, ⟨2560, 360, 1280, 1024⟩] ["a.png", "b.png"]
    (by intro s hs; simp at hs; rcases hs with rfl | rfl <;> decide)
    (by intro s hs; simp at hs; rcases hs with rfl | rfl <;> decide) (by simp)

/-- C6 (failing input): with a directory that lists no entry and at least one screen,
`buildBackdrop` evaluates `rand() % images.size()` with `images.size() == 0` in the first pass
of its first loop: an integer division by zero, not a reported error. -/
theorem buildBackdrop_empty_directory_divides_by_zero
    (interp : Mat → Int → Int → Int → Int → Pixel) (imread : String → Mat) (rand : Nat → Nat)
    (screen : Screen) (rest : List Screen) :
    buildBackdrop interp imread rand (screen :: rest) [] = .error .divideByZero := by
  unfold buildBackdrop
  rw [pickLoop_empty]

/-- C7 (failing input): one 1080 by 1920 screen and a decodable 3000 by 1921 image.  The image
handed to the paste step is 1080 by 1921, the size assertion of `copyTo` fails and
`buildBackdrop` returns no canvas. -/
theorem buildBackdrop_no_canvas_on_height_mismatch
    (interp : Mat → Int → Int → Int → Int → Pixel) (rand : Nat → Nat) :
    buildBackdrop interp (fun _ => gradientImage 3000 1921) rand [⟨0, 0, 1080, 1920⟩]
      ["photo.png"] = .error .cvAssert := by
  have hne : Dbl.eq (expectedRatioOf ⟨0, 0, 1080, 1920⟩) (imageRatioOf (gradientImage 3000 1921))
      = false := by decide
  have hlt : Dbl.lt (expectedRatioOf ⟨0, 0, 1080, 1920⟩) (imageRatioOf (gradientImage 3000 1921))
      = true := by decide
  have hcw : correctedWidthOf (gradientImage 3000 1921) ⟨0, 0, 1080, 1920⟩ = 1080 := by decide
  have hcrop : cropImage (gradientImage 3000 1921) ⟨0, 0, 1080, 1920⟩
      = .ok ⟨(gradientImage 3000 1921).buf, 960, 0, 1080, 1921⟩ := by
    rw [cropImage_wide _ _ hne hlt, hcw]; rfl
  have hpick : pickLoop ["photo.png"] rand [⟨0, 0, 1080, 1920⟩] ⟨0, 0, [], 0⟩
      = .ok ⟨1920, 1080, ["photo.png"], 1⟩ := by
    have a1 : addInt 1920 0 = 1920 := by decide
    have a2 : addInt 1080 0 = 1080 := by decide
    rw [pickLoop]
    simp [Nat.mod_one, pickLoop, a1, a2]
  unfold buildBackdrop
  rw [hpick]
  simp only [List.map_cons, List.map_nil, List.zip_cons_cons, List.zip_nil_right]
  rw [pasteLoop, hcrop]
  rfl

theorem blankCanvas_pixel (h w px py : Int) : (blankCanvas h w).pixel px py = black := rfl

/-- What a canvas returned for pairwise disjoint screens looks like: every screen's rectangle
holds its cropped and scaled image, which has the screen's size, and every other pixel is
black. -/
theorem composeBackdrop_pixels (interp : Mat → Int → Int → Int → Int → Pixel)
    (pairs : List (Screen × Mat)) (c : Mat)
    (hdis : pairs.Pairwise (fun a b => Screen.disjoint a.1 b.1))
    (h : composeBackdrop interp pairs = .ok c) :
    (∀ p ∈ pairs, ∃ img, cropAndScale interp p = .ok img ∧
      img.cols = p.1.width ∧ img.rows = p.1.height ∧
      ∀ px py, p.1.covers px py → c.pixel px py = img.pixel (px - p.1.x) (py - p.1.y)) ∧
    (∀ px py, (∀ p ∈ pairs, ¬ p.1.covers px py) → c.pixel px py = black) := by
  unfold composeBackdrop at h
  obtain ⟨_, _, _, _, hok, hpix⟩ := pasteLoop_ok_spec interp _ _ _ h
  constructor
  · intro p hp
    obtain ⟨img, himg, _, _, _, _, _, _, hc, hr⟩ := hok p hp
    refine ⟨img, himg, hc, hr, ?_⟩
    intro px py hcov
    rw [hpix px py]
    exact paintOver_of_covered_disjoint interp px py pairs hdis p hp img _ hcov himg
  · intro px py hno
    rw [hpix px py, paintOver_of_not_covered interp px py pairs _ hno]
    rfl

/-- C10: for pairwise disjoint screen rectangles, pasting the (screen, image) pairs in any
permuted order gives the same canvas: the same bounds and the same colour in every pixel (and
if one order fails, so does the other).  For screens that overlap, a pixel covered by an
earlier and a later processed screen holds the value pasted by the later one, unless a screen
processed after that covers it again. -/
theorem composeBackdrop_order_and_overlap (interp : Mat → Int → Int → Int → Int → Pixel) :
    (∀ pairs pairs1 : List (Screen × Mat), pairs.Perm pairs1 →
      pairs.Pairwise (fun a b => Screen.disjoint a.1 b.1) →
      ∀ c, composeBackdrop interp pairs = .ok c →
        ∃ c1, composeBackdrop interp pairs1 = .ok c1 ∧ c1.cols = c.cols ∧ c1.rows = c.rows ∧
          ∀ px py, c1.pixel px py = c.pixel px py) ∧
    (∀ (pre mid post : List (Screen × Mat)) (earlier later : Screen × Mat) (c : Mat)
      (px py : Int),
      composeBackdrop interp (pre ++ earlier :: (mid ++ later :: post)) = .ok c →
      earlier.1.covers px py → later.1.covers px py → (∀ q ∈ post, ¬ q.1.covers px py) →
      ∃ img, cropAndScale interp later = .ok img ∧
        c.pixel px py = img.pixel (px - later.1.x) (py - later.1.y)) := by
  constructor
  · intro pairs pairs1 hperm hdis c hc
    have hsymm : ∀ {a b : Screen × Mat}, Screen.disjoint a.1 b.1 → Screen.disjoint b.1 a.1 := by
      intro a b hab px py hcov
      exact hab px py ⟨hcov.2, hcov.1⟩
    have hdis1 : pairs1.Pairwise (fun a b => Screen.disjoint a.1 b.1) :=
      (List.Perm.pairwise_iff hsymm hperm).mp hdis
    have hpm : (pairs.map Prod.fst).Perm (pairs1.map Prod.fst) := hperm.map _
    have hH : canvasHeight (pairs1.map Prod.fst) = canvasHeight (pairs.map Prod.fst) :=
      (foldl_max_perm (fun s => addInt s.height s.y) _ _ hpm 0).symm
    have hW : canvasWidth (pairs1.map Prod.fst) = canvasWidth (pairs.map Prod.fst) :=
      (foldl_max_perm (fun s => addInt s.width s.x) _ _ hpm 0).symm
    obtain ⟨hcover, hblack⟩ := composeBackdrop_pixels interp pairs c hdis hc
    unfold composeBackdrop at hc
    obtain ⟨d1, d2, _, _, hok, _⟩ := pasteLoop_ok_spec interp _ _ _ hc
    have hok1 : ∀ p ∈ pairs1, PasteOk interp
        (blankCanvas (canvasHeight (pairs1.map Prod.fst)) (canvasWidth (pairs1.map Prod.fst))).cols
        (blankCanvas (canvasHeight (pairs1.map Prod.fst)) (canvasWidth (pairs1.map Prod.fst))).rows
        p := by
      intro p hp
      rw [hH, hW]
      exact hok p (hperm.mem_iff.mpr hp)
    obtain ⟨c1, hc1⟩ := pasteLoop_ok_of interp pairs1 _ hok1
    have hc1' : composeBackdrop interp pairs1 = .ok c1 := hc1
    obtain ⟨hcover1, hblack1⟩ := composeBackdrop_pixels interp pairs1 c1 hdis1 hc1'
    obtain ⟨e1, e2, _⟩ := pasteLoop_ok_spec interp _ _ _ hc1
    refine ⟨c1, hc1', ?_, ?_, ?_⟩
    · rw [e1, d1]; show canvasWidth _ = canvasWidth _; exact hW
    · rw [e2, d2]; show canvasHeight _ = canvasHeight _; exact hH
    · intro px py
      by_cases hex : ∃ p ∈ pairs, p.1.covers px py
      · obtain ⟨p, hp, hcov⟩ := hex
        obtain ⟨img, himg, _, _, hv⟩ := hcover p hp
        obtain ⟨img1, himg1, _, _, hv1⟩ := hcover1 p (hperm.mem_iff.mp hp)
        rw [himg] at himg1
        injection himg1 with himg1
        subst himg1
        rw [hv px py hcov, hv1 px py hcov]
      · push_neg at hex
        rw [hblack px py hex, hblack1 px py (fun p hp => hex p (hperm.mem_iff.mpr hp))]
  · intro pre mid post earlier later c px py hc _ hlater hpost
    unfold composeBackdrop at hc
    obtain ⟨_, _, _, _, hok, hpix⟩ := pasteLoop_ok_spec interp _ _ _ hc
    obtain ⟨img, himg, _⟩ := hok later (by simp)
    refine ⟨img, himg, ?_⟩
    rw [hpix px py]
    have hsplit : pre ++ earlier :: (mid ++ later :: post)
        = (pre ++ earlier :: mid) ++ later :: post := by simp
    rw [hsplit]
    exact paintOver_last_cover interp px py _ post later img _ hlater himg hpost

theorem leftPair_prepared :
    cropAndScale nearestNeighbour leftPair
      = .ok ⟨nearestNeighbour (gradientImage 3840 2160) 1920 1080, 0, 0, 1920, 1080⟩ := by
  have he : Dbl.eq (expectedRatioOf leftPair.1) (imageRatioOf leftPair.2) = true := by decide
  unfold cropAndScale
  rw [cropImage_same _ _ he]
  rfl

theorem rightPair_prepared :
    cropAndScale nearestNeighbour rightPair
      = .ok ⟨nearestNeighbour ⟨(gradientImage 3840 2160).buf, 1312, 0, 1215, 2160⟩ 1080 1920,
          0, 0, 1080, 1920⟩ := by
  have hne : Dbl.eq (expectedRatioOf rightPair.1) (imageRatioOf rightPair.2) = false := by decide
  have hlt : Dbl.lt (expectedRatioOf rightPair.1) (imageRatioOf rightPair.2) = true := by decide
  have hcw : correctedWidthOf rightPair.2 rightPair.1 = 1215 := by decide
  unfold cropAndScale
  rw [cropImage_wide _ _ hne hlt, hcw]
  rfl

theorem overlapPair_prepared :
    cropAndScale nearestNeighbour overlapPair = .ok (gradientImage 1920 1080) := by
  have he : Dbl.eq (expectedRatioOf overlapPair.1) (imageRatioOf overlapPair.2) = true := by
    decide
  unfold cropAndScale
  rw [cropImage_same _ _ he]
  rfl

/-- Instances of C10: two disjoint screens pasted in both orders, and two overlapping screens
where the pixel (1000, 10) of the overlap shows the second one. -/
theorem composeBackdrop_order_and_overlap_witness :
    (∃ c c1, composeBackdrop nearestNeighbour [leftPair, rightPair] = .ok c ∧
      composeBackdrop nearestNeighbour [rightPair, leftPair] = .ok c1 ∧
      c1.cols = c.cols ∧ c1.rows = c.rows ∧ ∀ px py, c1.pixel px py = c.pixel px py) ∧
    (∃ c img, composeBackdrop nearestNeighbour [leftPair, overlapPair] = .ok c ∧
      cropAndScale nearestNeighbour overlapPair = .ok img ∧
      c.pixel 1000 10 = img.pixel (1000 - overlapPair.1.x) (10 - overlapPair.1.y)) := by
  constructor
  · have hok : ∀ p ∈ [leftPair, rightPair], PasteOk nearestNeighbour 3000 1920 p := by
      intro p hp
      simp only [List.mem_cons, List.mem_singleton, List.not_mem_nil, or_false] at hp
      rcases hp with rfl | rfl
      · exact ⟨_, leftPair_prepared, by decide, by decide, by decide, by decide, by decide,
          by decide, rfl, rfl⟩
      · exact ⟨_, rightPair_prepared, by decide, by decide, by decide, by decide, by decide,
          by decide, rfl, rfl⟩
    obtain ⟨c, hc⟩ := pasteLoop_ok_of nearestNeighbour [leftPair, rightPair]
      (blankCanvas 1920 3000) hok
    have hc2 : composeBackdrop nearestNeighbour [leftPair, rightPair] = .ok c := hc
    have hdis : [leftPair, rightPair].Pairwise (fun a b => Screen.disjoint a.1 b.1) := by
      refine List.pairwise_cons.mpr ⟨?_, List.pairwise_singleton _ _⟩
      intro b hb
      simp only [List.mem_singleton] at hb
      subst hb
      intro px py
      unfold Screen.covers leftPair rightPair
      simp only
      omega
    obtain ⟨c1, h1, h2, h3, h4⟩ := (composeBackdrop_order_and_overlap nearestNeighbour).1
      [leftPair, rightPair] [rightPair, leftPair] (List.Perm.swap _ _ _) hdis c hc2
    exact ⟨c, c1, hc2, h1, h2, h3, h4⟩
  · have hok : ∀ p ∈ [leftPair, overlapPair], PasteOk nearestNeighbour 2880 1080 p := by
      intro p hp
      simp only [List.mem_cons, List.mem_singleton, List.not_mem_nil, or_false] at hp
      rcases hp with rfl | rfl
      · exact ⟨_, leftPair_prepared, by decide, by decide, by decide, by decide, by decide,
          by decide, rfl, rfl⟩
      · exact ⟨_, overlapPair_prepared, by decide, by decide, by decide, by decide, by decide,
          by decide, rfl, rfl⟩
    obtain ⟨c, hc⟩ := pasteLoop_ok_of nearestNeighbour [leftPair, overlapPair]
      (blankCanvas 1080 2880) hok
    have hc2 : composeBackdrop nearestNeighbour ([] ++ leftPair :: ([] ++ overlapPair :: []))
        = .ok c := hc
    obtain ⟨img, h1, h2⟩ := (composeBackdrop_order_and_overlap nearestNeighbour).2
      [] [] [] leftPair overlapPair c 1000 10 hc2 (by decide) (by decide)
      (by intro q hq; cases hq)
    exact ⟨c, img, hc, h1, h2⟩

end Wallpaper
